import Mathlib

/-!
Verification of the path-resolution and grouping engine of the
upload-multiple-artifacts action (`src/index.js`).

The development shallowly embeds the JavaScript source: pure string
functions become Lean functions over `String` (working on `String.data`,
i.e. lists of characters, mirroring the character-level behaviour of the
Node.js `path` module), the filesystem and the uploader become an explicit
oracle structure `World`, and the `async` control flow with exceptions
becomes `Except String` results.  Directory walking, whose JavaScript
original is an unbounded work-stack loop, is given a fuel parameter; a
result of `none` means the fuel was exhausted (the JavaScript loop would
still be running).
-/

namespace UploadArtifacts

/-! ## Character-level string helpers

Models of the pieces of `String.prototype.split`, `Array.prototype.join`
and the Node `path` module (POSIX flavour) that `src/index.js` uses.
-/

/-- Splits a character list at every occurrence of `sep`, keeping empty
groups, exactly like JavaScript `String.prototype.split` with a
single-character separator: `"a/b" ↦ [['a'], ['b']]`, `"/" ↦ [[], []]`,
`"" ↦ [[]]`. -/
def splitChars (sep : Char) : List Char → List (List Char)
  | [] => [[]]
  | c :: cs =>
    match splitChars sep cs with
    | [] => [[c]]
    | grp :: rest => if c = sep then [] :: grp :: rest else (c :: grp) :: rest

/-- Joins character groups with a separator character, like JavaScript
`Array.prototype.join` with a one-character separator. -/
def joinChars (sep : Char) : List (List Char) → List Char
  | [] => []
  | [g] => g
  | g :: gs => g ++ sep :: joinChars sep gs

/-- Splits a string into its separator-delimited segments
(JavaScript `p.split(sep)`). -/
def splitSegs (sep : Char) (p : String) : List String :=
  (splitChars sep p.data).map (fun cs => String.mk cs)

/-- Joins segments with a separator (JavaScript `parts.join(sep)`). -/
def segsJoin (sep : Char) (l : List String) : String :=
  String.mk (joinChars sep (l.map String.data))

/-! ## Node `path` module, POSIX flavour -/

/-- Model of POSIX `path.isAbsolute`: the path starts with `/`. -/
def isAbsolutePosix (p : String) : Bool :=
  match p.data with
  | [] => false
  | c :: _ => c = '/'

/-- Model of Node's internal `normalizeString`: processes the split
segments of a path, dropping empty and `.` segments, resolving `..`
against the accumulated result; `allowAboveRoot` (used for relative
paths) keeps leading `..` segments instead of discarding them. -/
def normSegs (allowAboveRoot : Bool) : List String → List String → List String
  | acc, [] => acc
  | acc, s :: rest =>
    if s = "" ∨ s = "." then normSegs allowAboveRoot acc rest
    else if s = ".." then
      if acc ≠ [] ∧ acc.getLast? ≠ some ".." then
        normSegs allowAboveRoot acc.dropLast rest
      else if allowAboveRoot then
        normSegs allowAboveRoot (acc ++ [".."]) rest
      else
        normSegs allowAboveRoot acc rest
    else normSegs allowAboveRoot (acc ++ [s]) rest

/-- Segment form of POSIX `path.resolve(p)` run with current working
directory `cwd` (assumed absolute, as `process.cwd()` always is): the
fully resolved path is `/` followed by these segments. -/
def resolveSegsP (cwd p : String) : List String :=
  normSegs false [] (splitSegs '/' (if isAbsolutePosix p then p else cwd ++ "/" ++ p))

/-- Model of POSIX `path.resolve(p)` with current working directory
`cwd`: resolves `p` against `cwd` when relative and normalises. -/
def resolvePosix (cwd p : String) : String :=
  if (resolveSegsP cwd p).isEmpty then "/" else "/" ++ segsJoin '/' (resolveSegsP cwd p)

/-- The normalised segments of a path, with `..` kept above the root
only for relative paths (the `normalizeString` call inside Node's POSIX
`path.normalize`). -/
def normSegsOf (p : String) : List String :=
  normSegs (¬ isAbsolutePosix p) [] (splitSegs '/' p)

/-- The joined normalised segments of a path (the intermediate string of
Node's POSIX `path.normalize` before root/trailing adjustments). -/
def normCore (p : String) : String :=
  segsJoin '/' (normSegsOf p)

/-- Model of POSIX `path.normalize`: collapses `.`, `..` and repeated
separators, preserving a trailing separator and leading `..` segments of
relative paths, following Node's implementation. -/
def normalizePosix (p : String) : String :=
  if p.data = [] then "." else
  if (normCore p).data = [] then
    if isAbsolutePosix p then "/"
    else if p.data.getLast? = some '/' then "./" else "."
  else
    if isAbsolutePosix p then
      "/" ++ (if p.data.getLast? = some '/' then normCore p ++ "/" else normCore p)
    else
      if p.data.getLast? = some '/' then normCore p ++ "/" else normCore p

/-- Model of POSIX `path.join(a, b)`: concatenates the non-empty parts
with a separator and normalises; all-empty input yields `"."`. -/
def pathJoin (a b : String) : String :=
  if ([a, b].filter (fun s => s ≠ "")).isEmpty then "."
  else normalizePosix (segsJoin '/' ([a, b].filter (fun s => s ≠ "")))

/-- Shared character-level core of Node's `path.dirname`: strips
trailing separators, then the final path component; returns the root or
`.` when nothing remains.  `special` enables the POSIX-only double-slash
root case (`dirname("//a") = "//"`). -/
def dirnameCore (sep : Char) (special : Bool) (p : String) : String :=
  match p.data with
  | [] => "."
  | c0 :: _ =>
    match (p.data.reverse.dropWhile (fun c => c = sep)).dropWhile (fun c => c ≠ sep) with
    | [] => if c0 = sep then String.mk [sep] else "."
    | _ :: kept =>
      if kept = [] then (if c0 = sep then String.mk [sep] else ".")
      else if special ∧ c0 = sep ∧ kept = [sep] then String.mk [sep, sep]
      else String.mk kept.reverse

/-- Model of POSIX `path.dirname`, following Node's character-level
implementation. -/
def dirnamePosix (p : String) : String := dirnameCore '/' true p

/-- Model of POSIX `path.parse(p).root`: `/` for absolute paths, empty
otherwise. -/
def parseRootPosix (p : String) : String :=
  if isAbsolutePosix p then "/" else ""

/-- Number of leading positions at which two segment lists agree. -/
def commonPrefixLen : List String → List String → Nat
  | a :: as, b :: bs => if a = b then commonPrefixLen as bs + 1 else 0
  | _, _ => 0

/-- Model of POSIX `path.relative(from, to)` with current working
directory `cwd`: resolves both arguments, drops their common leading
segments, and emits one `..` per remaining segment of `from` followed by
the remaining segments of `to`. -/
def relativePosix (cwd fromP toP : String) : String :=
  if resolvePosix cwd fromP = resolvePosix cwd toP then ""
  else
    segsJoin '/'
      (List.replicate
        ((resolveSegsP cwd fromP).length -
          commonPrefixLen (resolveSegsP cwd fromP) (resolveSegsP cwd toP)) ".." ++
      (resolveSegsP cwd toP).drop
        (commonPrefixLen (resolveSegsP cwd fromP) (resolveSegsP cwd toP)))

/-- True when the string, read as a `/`-separated path, contains a `..`
segment. -/
def noDotDot (s : String) : Bool :=
  (splitSegs '/' s).all (fun seg => seg ≠ "..")

/-! ## Node `path` module, Windows flavour (restricted)

`computeCommonRootDirectory` in `src/index.js` is written against the
platform-dependent `path.sep`, `path.resolve`, `path.dirname` and
`path.parse(..).root`.  Its zero-agreement fallback branch is reachable
only when the first path segments can differ, i.e. on Windows where they
are drive letters.  The model below covers the drive-absolute fragment of
Node's `path.win32` (paths of the form `C:\dir\file`); UNC paths and
drive-relative paths (`C:file`) are outside this development's scope. -/

/-- True when the string is a drive-absolute Windows path such as
`C:\dir\file`. -/
def isDriveAbs (p : String) : Bool :=
  match p.data with
  | c :: c1 :: c2 :: _ => c.isAlpha ∧ c1 = ':' ∧ c2 = '\\'
  | _ => false

/-- The path `resolveWin` works on: `p` itself when drive-absolute,
otherwise `p` appended to the working directory. -/
def winCombined (cwd p : String) : String :=
  if isDriveAbs p then p else cwd ++ "\\" ++ p

/-- The drive (device) part of the combined Windows path. -/
def winDevice (cwd p : String) : String :=
  String.mk ((winCombined cwd p).data.take 2)

/-- The normalised segments of the combined Windows path after the
drive. -/
def winSegsOf (cwd p : String) : List String :=
  normSegs false [] (splitSegs '\\' (String.mk ((winCombined cwd p).data.drop 2)))

/-- Model of Windows `path.resolve(p)` with a drive-absolute working
directory `cwd`, restricted to drive-absolute or plain relative `p`. -/
def resolveWin (cwd p : String) : String :=
  if (winSegsOf cwd p).isEmpty then winDevice cwd p ++ "\\"
  else winDevice cwd p ++ "\\" ++ segsJoin '\\' (winSegsOf cwd p)

/-- Backslash analogue of `dirnamePosix` (without the POSIX `//` special
case), used for the part of a Windows path after the drive. -/
def dirnameBack (p : String) : String := dirnameCore '\\' false p

/-- Model of Windows `path.dirname` on the drive-absolute fragment:
keeps the drive and takes the dirname of the remainder. -/
def dirnameWin (p : String) : String :=
  if isDriveAbs p then
    String.mk (p.data.take 2) ++ dirnameBack (String.mk (p.data.drop 2))
  else dirnameBack p

/-- Model of Windows `path.parse(p).root` on the drive-absolute
fragment: the drive plus separator (`C:\`), a bare `\` for rooted
drive-less paths, empty otherwise. -/
def parseRootWin (p : String) : String :=
  if isDriveAbs p then String.mk (p.data.take 3)
  else
    match p.data with
    | '\\' :: _ => "\\"
    | _ => ""

/-! ## RootDirectoryComputer (`computeCommonRootDirectory`)

`src/index.js` lines 120-139.  The function is written against the
platform-dependent pieces of the Node `path` module, so the embedding
takes them as an explicit `PathPlatform`; `posixPlatform` and
`win32Platform` instantiate it with the models above. -/

/-- The platform-dependent pieces of the Node `path` module that
`computeCommonRootDirectory` consumes, plus `process.cwd()`. -/
structure PathPlatform where
  sep : Char
  resolve : String → String
  dirname : String → String
  parseRoot : String → String
  cwd : String

/-- The POSIX platform, with current working directory `cwd`. -/
def posixPlatform (cwd : String) : PathPlatform where
  sep := '/'
  resolve := resolvePosix cwd
  dirname := dirnamePosix
  parseRoot := parseRootPosix
  cwd := cwd

/-- The Windows platform (drive-absolute fragment), with current working
directory `cwd`. -/
def win32Platform (cwd : String) : PathPlatform where
  sep := '\\'
  resolve := resolveWin cwd
  dirname := dirnameWin
  parseRoot := parseRootWin
  cwd := cwd

/-- Model of the `reduce`-computed minimum split length (`minLen` in the
source).  The JavaScript initial accumulator is `Infinity`; the caller
only uses the value for non-empty input, where it is the minimum of the
lengths, so the empty case may return anything (here `0`). -/
def minLenOf : List (List String) → Nat
  | [] => 0
  | a :: rest => rest.foldl (fun m arr => min m arr.length) a.length

/-- Model of the segment-agreement loop of `computeCommonRootDirectory`:
starting at index `i` with `fuel` remaining iterations (the source runs
`minLen` iterations), collects `splitPaths[0][i]` while every split path
agrees at index `i`, stopping at the first disagreement.  Out-of-range
indices read as `""`; the caller guarantees `i < minLen` so this never
happens in source-reachable states. -/
def commonPartsGo (splitPaths : List (List String)) (first : List String) :
    Nat → Nat → List String
  | _, 0 => []
  | i, fuel + 1 =>
    let part := first.getD i ""
    if splitPaths.all (fun arr => arr.getD i "" = part) then
      part :: commonPartsGo splitPaths first (i + 1) fuel
    else []

/-- The `commonParts` array computed by `computeCommonRootDirectory`. -/
def commonPartsOf (splitPaths : List (List String)) : List String :=
  match splitPaths with
  | [] => []
  | first :: _ => commonPartsGo splitPaths first 0 (minLenOf splitPaths)

/-- The `splitPaths` array of `computeCommonRootDirectory`: the parent
directory of every file, split at the platform separator. -/
def splitPathsOf (P : PathPlatform) (filePaths : List String) : List (List String) :=
  (filePaths.map (fun p => P.dirname (P.resolve p))).map (fun p => splitSegs P.sep p)

/-- The `common` string of `computeCommonRootDirectory`: the joined
agreeing segments, or — when no segment agrees — the filesystem root of
the first file's parent (or that parent itself when its root is
empty). -/
def commonOf (P : PathPlatform) (filePaths : List String) (first : String) : String :=
  if (commonPartsOf (splitPathsOf P filePaths)).length > 0 then
    segsJoin P.sep (commonPartsOf (splitPathsOf P filePaths))
  else if (P.parseRoot (P.dirname (P.resolve first))).data ≠ [] then
    P.parseRoot (P.dirname (P.resolve first))
  else P.dirname (P.resolve first)

/-- Model of `computeCommonRootDirectory` (`src/index.js` lines
120-139): empty input falls back to the working directory; otherwise the
parent directory of every file is split at the separator, the segments
agreeing from index 0 are joined, and when no segment agrees the result
falls back to the filesystem root of the first file's parent; an empty
result falls back to the working directory. -/
def computeCommonRootDirectory (P : PathPlatform) (filePaths : List String) : String :=
  match filePaths with
  | [] => P.cwd
  | first :: _ =>
    if (commonOf P filePaths first).data = [] then P.cwd
    else commonOf P filePaths first

/-! ## Filesystem and uploader oracles

The filesystem primitives (`fs.promises.access`, `fs.promises.lstat`,
`fs.promises.readdir`), the `fast-glob` expander and the artifact
uploader are external collaborators (spec section 1); a `World` fixes
their behaviour as deterministic oracles, which is exactly the "fixed
filesystem state" the claims quantify over.  Primitives that the
JavaScript source can observe throwing return `Except String`. -/

/-- Result of `lstat`: the type flags the source consults. -/
structure Stat where
  isDirectory : Bool
  isFile : Bool
deriving DecidableEq

/-- One `readdir` entry (`withFileTypes: true`). -/
structure DirEntry where
  name : String
  isDirectory : Bool
  isFile : Bool
deriving DecidableEq

/-- Result of the uploader collaborator. -/
structure UploadResult where
  artifactName : String
  successfulItems : Nat
deriving DecidableEq

/-- A fixed external world: filesystem primitives, glob expander and
uploader.  `access` models `fs.promises.access(p, R_OK)`, `lstat` models
`fs.promises.lstat`, `readdir` models `fs.promises.readdir` with file
types, `globFiles`/`globDirs` model the two `fast-glob` calls (with
`onlyFiles` and `onlyDirectories` respectively, both `absolute: true`),
and `upload` models `client.uploadArtifact` (uploader failure is outside
this development, spec section 1). -/
structure World where
  access : String → Except String Unit
  lstat : String → Except String Stat
  readdir : String → Except String (List DirEntry)
  globFiles : String → List String
  globDirs : String → List String
  upload : String → List String → String → UploadResult

/-! ## FileSystemProbe and DirectoryWalker -/

/-- Model of `pathExists` (`src/index.js` lines 23-30): `access` with a
`try`/`catch`, so errors become `false`. -/
def pathExists (w : World) (p : String) : Bool :=
  match w.access p with
  | .ok _ => true
  | .error _ => false

/-- Model of `statSafe` (`src/index.js` lines 32-38): `lstat` with a
`try`/`catch`, so errors become `null`. -/
def statSafe (w : World) (p : String) : Option Stat :=
  match w.lstat p with
  | .ok st => some st
  | .error _ => none

/-- Model of the work-stack loop of `collectFilesFromDirectory`
(`src/index.js` lines 40-56).  The Lean stack head is the JavaScript
array end (`pop` takes the head, pushes cons), so directories discovered
in one directory are consed in reverse to preserve the LIFO pop order.
`readdir` errors are not caught and abort the whole walk.  `none` means
the fuel ran out (the JavaScript loop would still be running, e.g. on a
symbolic-link cycle). -/
def collectLoop (w : World) : Nat → List String → List String →
    Option (Except String (List String))
  | 0, [], files => some (.ok files)
  | 0, _ :: _, _ => none
  | _ + 1, [], files => some (.ok files)
  | fuel + 1, current :: stackRest, files =>
    match w.readdir current with
    | .error e => some (.error e)
    | .ok entries =>
      collectLoop w fuel
        ((((entries.filter (fun e => e.isDirectory)).map
          (fun e => pathJoin current e.name)).reverse) ++ stackRest)
        (files ++ (entries.filter (fun e => ¬ e.isDirectory ∧ e.isFile)).map
          (fun e => pathJoin current e.name))

/-- Model of `collectFilesFromDirectory` (`src/index.js` lines 40-56):
all regular files reachable from `dirPath` by the stack-based walk. -/
def collectFilesFromDirectory (w : World) (fuel : Nat) (dirPath : String) :
    Option (Except String (List String)) :=
  collectLoop w fuel [dirPath] []

/-! ## PatternClassifier (`hasGlobChars`) -/

/-- The characters of the classifier's regular expression
`/[*?[\]{}()!]/`; `Char.ofNat 123` and `Char.ofNat 125` are the opening
and closing curly braces. -/
def isGlobChar (c : Char) : Bool :=
  c = '*' ∨ c = '?' ∨ c = '[' ∨ c = ']' ∨ c = Char.ofNat 123 ∨
    c = Char.ofNat 125 ∨ c = '(' ∨ c = ')' ∨ c = '!'

/-- Model of `hasGlobChars` (`src/index.js` lines 58-60). -/
def hasGlobChars (p : String) : Bool :=
  p.data.any isGlobChar

/-! ## PathResolver (`resolveInputPathsToFiles`) -/

/-- Anchoring step of the resolver (`src/index.js` line 65): absolute
patterns are kept, relative ones are joined to the workspace. -/
def anchorPath (workspace input : String) : String :=
  if isAbsolutePosix input then input else pathJoin workspace input

/-- Walks every glob-matched directory in order, folding the collected
files into `acc` (the `for (const dir of dirMatches)` loop,
`src/index.js` lines 81-84). -/
def walkDirsAccum (w : World) (fuel : Nat) :
    List String → List String → Option (Except String (List String))
  | [], acc => some (.ok acc)
  | d :: ds, acc =>
    match collectFilesFromDirectory w fuel d with
    | none => none
    | some (.error e) => some (.error e)
    | some (.ok dirFiles) => walkDirsAccum w fuel ds (acc ++ dirFiles)

/-- Per-pattern body of `resolveInputPathsToFiles` (`src/index.js` lines
64-113): returns the files contributed by one pattern together with the
warnings it logged, or the uncaught error that aborted resolution. -/
def resolveOne (w : World) (fuel : Nat) (workspace input : String) :
    Option (Except String (List String × List String)) :=
  if hasGlobChars (anchorPath workspace input) then
    match walkDirsAccum w fuel (w.globDirs (anchorPath workspace input)) [] with
    | none => none
    | some (.error e) => some (.error e)
    | some (.ok dirFiles) =>
      some (.ok (dirFiles ++ w.globFiles (anchorPath workspace input),
        if (w.globFiles (anchorPath workspace input)).isEmpty ∧
            (w.globDirs (anchorPath workspace input)).isEmpty then
          ["Glob did not match any files or directories: " ++ input]
        else []))
  else
    if ¬ pathExists w (anchorPath workspace input) then
      some (.ok ([], ["Path not found, skipping: " ++ input]))
    else
      match statSafe w (anchorPath workspace input) with
      | none => some (.ok ([], ["Unable to stat path, skipping: " ++ input]))
      | some st =>
        if st.isDirectory then
          match collectFilesFromDirectory w fuel (anchorPath workspace input) with
          | none => none
          | some (.error e) => some (.error e)
          | some (.ok dirFiles) =>
            if dirFiles.isEmpty then
              some (.ok ([], ["Directory is empty, skipping: " ++ input]))
            else some (.ok (dirFiles, []))
        else if st.isFile then
          some (.ok ([anchorPath workspace input], []))
        else
          some (.ok ([], ["Not a regular file or directory, skipping: " ++ input]))

/-- Model of `Array.from(new Set(l))` for strings: keeps the first
occurrence of every element, in insertion order. -/
def jsSetDedup (l : List String) : List String :=
  l.foldl (fun acc x => if x ∈ acc then acc else acc ++ [x]) []

/-- The pattern loop of `resolveInputPathsToFiles`, accumulating files
and warnings, followed by the final normalise-and-deduplicate step
(`src/index.js` lines 115-117). -/
def resolveGo (w : World) (fuel : Nat) (workspace : String) :
    List String → List String → List String →
    Option (Except String (List String × List String))
  | [], files, warns => some (.ok (jsSetDedup (files.map normalizePosix), warns))
  | input :: rest, files, warns =>
    match resolveOne w fuel workspace input with
    | none => none
    | some (.error e) => some (.error e)
    | some (.ok (fs, ws)) => resolveGo w fuel workspace rest (files ++ fs) (warns ++ ws)

/-- Model of `resolveInputPathsToFiles` (`src/index.js` lines 62-118):
resolves every pattern against the workspace and returns the normalised,
deduplicated file list together with the warnings logged along the way. -/
def resolveInputPathsToFiles (w : World) (fuel : Nat)
    (workspace : String) (inputPaths : List String) :
    Option (Except String (List String × List String)) :=
  resolveGo w fuel workspace inputPaths [] []

/-! ## Configuration values and validation (`ensureArrayOfArtifacts`)

The parsed JSON configuration is a dynamically-typed JavaScript value;
`JsonVal` models the shapes `JSON.parse` can produce.  Numbers carry
their JavaScript string rendering, which is all the source ever observes
of them. -/

/-- A parsed JSON value. `num` carries the string `String(n)` would
produce, the only view of a number the source uses. -/
inductive JsonVal
  | null
  | boolean (b : Bool)
  | num (disp : String)
  | str (s : String)
  | arr (items : List JsonVal)
  | obj (fields : List (String × JsonVal))

/-- JavaScript truthiness of a `JsonVal` (`!item` in the source). -/
def jsTruthy : JsonVal → Bool
  | .null => false
  | .boolean b => b
  | .num d => ¬ (d = "0" ∨ d = "-0" ∨ d = "NaN")
  | .str s => s ≠ ""
  | .arr _ => true
  | .obj _ => true

/-- Whether `typeof item === 'object'` holds (`null`, arrays and plain
objects; the source additionally rules `null` out via truthiness). -/
def jsTypeofObject : JsonVal → Bool
  | .null => true
  | .arr _ => true
  | .obj _ => true
  | _ => false

/-- Number of `Object.keys(item)` entries for the values that reach the
check (arrays count their elements, objects their fields). -/
def jsKeyCount : JsonVal → Nat
  | .arr items => items.length
  | .obj fields => fields.length
  | _ => 0

/-- Property access `item.f`: `none` models JavaScript `undefined`. -/
def jsGetField : JsonVal → String → Option JsonVal
  | .obj fields, f => (fields.find? (fun kv => kv.fst = f)).map (fun kv => kv.snd)
  | _, _ => none

mutual

/-- JavaScript `String(v)` on a JSON value (array elements that are
`null` render as the empty string inside a joined array, as
`Array.prototype.toString` does). -/
def jsToString : JsonVal → String
  | .null => "null"
  | .boolean b => if b then "true" else "false"
  | .num d => d
  | .str s => s
  | .arr items => segsJoin ',' (jsToStringElems items)
  | .obj _ => "[object Object]"

/-- Stringifies the elements of a JavaScript array for joining, with
`null` elements rendered empty. -/
def jsToStringElems : List JsonVal → List String
  | [] => []
  | .null :: rest => "" :: jsToStringElems rest
  | v :: rest => jsToString v :: jsToStringElems rest

end

/-- Model of `isString` (`src/index.js` lines 7-9). -/
def isString : Option JsonVal → Bool
  | some (.str _) => true
  | _ => false

/-- Model of JavaScript `String.prototype.trim`: whitespace stripped
from both ends. -/
def jsTrim (s : String) : String :=
  String.mk
    (((s.data.dropWhile Char.isWhitespace).reverse.dropWhile Char.isWhitespace).reverse)

/-- Model of `toPathArray` (`src/index.js` lines 11-21): arrays are
filtered of `null`s, stringified, trimmed and filtered of empties;
`null`/`undefined` yield no patterns; anything else is stringified and
trimmed into at most one pattern. -/
def toPathArray : Option JsonVal → List String
  | some (.arr items) =>
    (((items.filter (fun p => match p with | .null => false | _ => true)).map
      (fun p => jsTrim (jsToString p))).filter (fun s => s.length > 0))
  | none => []
  | some .null => []
  | some v =>
    let s := jsTrim (jsToString v)
    if s.length = 0 then [] else [s]

/-- A validated artifact definition (`{ name, paths }` in the source). -/
structure ArtifactDef where
  name : String
  paths : List String
deriving DecidableEq

/-- The indexed entry loop of `ensureArrayOfArtifacts` (`src/index.js`
lines 145-164): rejects non-objects, silently skips entries with no
keys, and requires a non-empty `name` string and at least one normalised
path pattern. -/
def ensureItems : Nat → List JsonVal → Except String (List ArtifactDef)
  | _, [] => .ok []
  | index, item :: rest =>
    if ¬ (jsTruthy item ∧ jsTypeofObject item) then
      .error ("Artifact at index " ++ toString index ++ " must be an object.")
    else if jsKeyCount item = 0 then
      ensureItems (index + 1) rest
    else
      let name := jsGetField item "name"
      let paths := toPathArray (jsGetField item "path")
      if ¬ isString name ∨ (jsTrim (jsToString (name.getD .null))).length = 0 then
        .error ("Artifact at index " ++ toString index ++
          " is missing a non-empty \"name\".")
      else if paths.length = 0 then
        .error ("Artifact \"" ++ jsToString (name.getD .null) ++
          "\" has no valid \"path\" entries.")
      else
        match ensureItems (index + 1) rest with
        | .error e => .error e
        | .ok defs =>
          .ok ({ name := jsTrim (jsToString (name.getD .null)), paths := paths } :: defs)

/-- Model of `ensureArrayOfArtifacts` (`src/index.js` lines 141-166):
the configuration must be an array, and every entry is validated in
order before any resolution happens. -/
def ensureArrayOfArtifacts : JsonVal → Except String (List ArtifactDef)
  | .arr items => ensureItems 0 items
  | _ => .error "Config JSON must be an array of artifact definitions."

/-! ## ArtifactGrouper (`run`) -/

/-- Model of JavaScript `String.prototype.toLowerCase` restricted to
character-wise lowering (the source only ever compares the result with
`"true"`). -/
def jsToLowerCase (s : String) : String :=
  String.mk (s.data.map Char.toLower)

/-- Model of the `continue-on-error` input handling (`src/index.js`
lines 172-173): an unset input (empty string, the only falsy string)
defaults to `"false"`, then the flag is the lowercased comparison with
`"true"`. -/
def parseContinueOnError (raw : String) : Bool :=
  let v := if raw = "" then "false" else raw
  jsToLowerCase v == "true"

/-- Message produced when a definition resolves to zero files
(`src/index.js` line 211). -/
def noFilesMessage (name : String) : String :=
  "Artifact \"" ++ name ++ "\": no files matched any provided path."

/-- Externally observable actions of the grouper loop: diagnostics and
the calls it makes per definition. -/
inductive Event
  | warn (msg : String)
  | info (msg : String)
  | resolveCall (name : String)
  | uploadCall (name : String) (files : List String) (root : String)
deriving DecidableEq

/-- Model of the per-definition loop of `run` (`src/index.js` lines
208-233): resolve, apply the zero-file policy, compute the root, upload.
The result pairs the events in order with the fatal message (`none` for
a clean run); a thrown error is the fatal outcome the surrounding
`catch` feeds to `core.setFailed`.  `none` means resolution fuel ran
out. -/
def runArtifacts (w : World) (fuel : Nat) (workspace : String)
    (continueOnError : Bool) (cwd : String) :
    List ArtifactDef → Option (List Event × Option String)
  | [] => some ([], none)
  | d :: rest =>
    match resolveInputPathsToFiles w fuel workspace d.paths with
    | none => none
    | some (.error e) => some ([.resolveCall d.name], some e)
    | some (.ok (files, _resolveWarns)) =>
      if files.isEmpty then
        if continueOnError then
          match runArtifacts w fuel workspace continueOnError cwd rest with
          | none => none
          | some (evs, outcome) =>
            some (.resolveCall d.name :: .warn (noFilesMessage d.name) :: evs, outcome)
        else some ([.resolveCall d.name], some (noFilesMessage d.name))
      else
        let root := computeCommonRootDirectory (posixPlatform cwd) files
        match runArtifacts w fuel workspace continueOnError cwd rest with
        | none => none
        | some (evs, outcome) =>
          some (.resolveCall d.name :: .uploadCall d.name files root :: evs, outcome)

/-- Model of `run` from the parsed configuration value onward
(`src/index.js` lines 200-233; reading and JSON-parsing the
configuration file are external collaborators, spec section 1):
validation runs first and a validation error is fatal with no further
events; an empty definition list exits with an informational message;
otherwise the grouper loop processes the definitions in order. -/
def runWithConfig (w : World) (fuel : Nat) (workspace : String)
    (continueOnErrorInput : String) (cwd : String) (parsed : JsonVal) :
    Option (List Event × Option String) :=
  let continueOnError := parseContinueOnError continueOnErrorInput
  match ensureArrayOfArtifacts parsed with
  | .error e => some ([], some e)
  | .ok artifacts =>
    if artifacts.isEmpty then
      some ([.info "No artifacts to upload. Exiting."], none)
    else runArtifacts w fuel workspace continueOnError cwd artifacts

/-! ## Specification-side definitions

Definitions transcribed from the specification's wording, used to state
refinement conclusions against the implementation model. -/

/-- A path segment as produced by `normalizeString`: non-empty, not a
dot segment, and free of the separator. -/
def GoodSeg (sep : Char) (s : String) : Prop :=
  s ≠ "" ∧ s ≠ "." ∧ s ≠ ".." ∧ sep ∉ s.data

/-- True when the string, read as a `/`-separated path, contains no `.`
or `..` segment. -/
def cleanSegs (s : String) : Bool :=
  (splitSegs '/' s).all (fun seg => seg ≠ "." ∧ seg ≠ "..")

/-- Longest common prefix of two segment lists
(specification-side). -/
def lcp2 : List String → List String → List String
  | a :: as, b :: bs => if a = b then a :: lcp2 as bs else []
  | _, _ => []

/-- The spec's common-segment computation: "walk segment index 0, 1, 2,
… comparing the segment at that index across all parent paths; stop at
the first index where not all parents agree" — i.e. the longest common
prefix of the family (specification-side, compared against the
implementation's `commonPartsOf`). -/
def specCommonParts : List (List String) → List String
  | [] => []
  | a :: rest => rest.foldl lcp2 a

/-- Derived characterisation of the split parent directory of a file on
POSIX: the parent of `resolvePosix cwd f` splits into a leading empty
segment followed by this tail — a single empty segment when the resolved
file sits directly under the root, otherwise the resolved segments
without the final one (proved as `parentSplit_posix` below). -/
def tailSegs (cwd f : String) : List String :=
  if (resolveSegsP cwd f).length ≤ 1 then [""]
  else (resolveSegsP cwd f).dropLast

/-! ## Concrete worlds used to evaluate the development

Small fixed filesystem states used to instantiate the theorems below on
concrete inputs. -/

/-- A workspace `/w` containing directory `a` with one file `a/f.txt`, a
directory `d` whose subdirectory `d/sub` is unreadable (its `readdir`
throws `EACCES`), an empty directory `empty`, a path `odd` that is
accessible but whose `lstat` throws, a socket `sock` (neither file nor
directory), and two files matched by the glob `*.xml`. -/
def wRich : World where
  access := fun p =>
    if p = "/w/a" ∨ p = "/w/a/f.txt" ∨ p = "/w/d" ∨ p = "/w/empty" ∨
        p = "/w/odd" ∨ p = "/w/sock" then .ok ()
    else .error "ENOENT"
  lstat := fun p =>
    if p = "/w/a" ∨ p = "/w/d" ∨ p = "/w/empty" then .ok ⟨true, false⟩
    else if p = "/w/a/f.txt" then .ok ⟨false, true⟩
    else if p = "/w/sock" then .ok ⟨false, false⟩
    else .error "ENOENT"
  readdir := fun p =>
    if p = "/w/a" then .ok [⟨"f.txt", false, true⟩]
    else if p = "/w/d" then .ok [⟨"sub", true, false⟩, ⟨"g.txt", false, true⟩]
    else if p = "/w/d/sub" then .error "EACCES: permission denied"
    else if p = "/w/empty" then .ok []
    else .error "ENOENT"
  globFiles := fun p => if p = "/w/*.xml" then ["/w/r1.xml", "/w/r2.xml"] else []
  globDirs := fun _ => []
  upload := fun n fs _ => ⟨n, fs.length⟩

/-- A world holding the single file `file.txt` both under the workspace
`/w(1)` (whose name contains glob metacharacters) and under `/w1`; the
glob expander matches nothing anywhere. -/
def wParen : World where
  access := fun p =>
    if p = "/w(1)/file.txt" ∨ p = "/w1/file.txt" then .ok () else .error "ENOENT"
  lstat := fun p =>
    if p = "/w(1)/file.txt" ∨ p = "/w1/file.txt" then .ok ⟨false, true⟩
    else .error "ENOENT"
  readdir := fun _ => .error "ENOENT"
  globFiles := fun _ => []
  globDirs := fun _ => []
  upload := fun n fs _ => ⟨n, fs.length⟩

/-- A world in which every directory reads as empty, so every walk
terminates successfully with one unit of fuel. -/
def wCalm : World where
  access := fun p => if p = "/w/a/f.txt" then .ok () else .error "ENOENT"
  lstat := fun p =>
    if p = "/w/a/f.txt" then .ok ⟨false, true⟩ else .error "ENOENT"
  readdir := fun _ => .ok []
  globFiles := fun _ => []
  globDirs := fun _ => []
  upload := fun n fs _ => ⟨n, fs.length⟩

/-! # Theorems -/

/-- C10: for every string value of the continue-on-error input, the
`continueOnError` flag is true iff the value lowercased equals exactly
`"true"`; `"1"`, `"yes"` and the empty string (which defaults to
`"false"`) all yield `false`. -/
theorem claimC10_continue_on_error_flag :
    (∀ s : String, parseContinueOnError s = true ↔ jsToLowerCase s = "true") ∧
    parseContinueOnError "1" = false ∧
    parseContinueOnError "yes" = false ∧
    parseContinueOnError "" = false := by
  refine ⟨fun s => ?_, by decide, by decide, by decide⟩
  unfold parseContinueOnError
  by_cases h : s = ""
  · subst h
    constructor
    · intro hfalse
      exact absurd hfalse (by decide)
    · intro habs
      exact absurd habs (by decide)
  · simp only [h, if_neg, ite_false, beq_iff_eq]

/-- C8: resolving the same definition twice against the same fixed
filesystem state yields the same file set (the very same list, hence
equality as order-independent sets). -/
theorem claimC8_resolution_idempotent (w : World) (fuel : Nat)
    (workspace : String) (paths : List String)
    (r₁ r₂ : List String × List String)
    (h₁ : resolveInputPathsToFiles w fuel workspace paths = some (.ok r₁))
    (h₂ : resolveInputPathsToFiles w fuel workspace paths = some (.ok r₂)) :
    r₁.1 = r₂.1 ∧ ∀ x, x ∈ r₁.1 ↔ x ∈ r₂.1 := by
  rw [h₁] at h₂
  have h3 : r₁ = r₂ := by
    injection h₂ with h4
    injection h4
  subst h3
  exact ⟨rfl, fun x => Iff.rfl⟩

/-- Witness for C8 at a concrete world and definition. -/
theorem claimC8_witness :
    resolveInputPathsToFiles wRich 10 "/w" ["a"] =
      some (.ok (["/w/a/f.txt"], [])) ∧
    (["/w/a/f.txt"] = ["/w/a/f.txt"] ∧
      ∀ x, x ∈ ["/w/a/f.txt"] ↔ x ∈ ["/w/a/f.txt"]) := by
  refine ⟨rfl, ?_⟩
  exact claimC8_resolution_idempotent wRich 10 "/w" ["a"]
    (["/w/a/f.txt"], []) (["/w/a/f.txt"], []) rfl rfl

/-- C1: when a definition's resolved file set is empty, with
`continueOnError = true` the grouper logs the warning naming the
artifact, produces nothing for it (no upload event) and continues with
the remaining definitions unchanged; with `continueOnError = false` the
run aborts fatally at that definition: the only event is its resolution,
so no later definition is resolved and no upload call is made for any
subsequent definition. -/
theorem claimC1_zero_file_policy (w : World) (fuel : Nat)
    (workspace cwd : String) (d : ArtifactDef) (rest : List ArtifactDef)
    (warns : List String)
    (h : resolveInputPathsToFiles w fuel workspace d.paths = some (.ok ([], warns))) :
    (runArtifacts w fuel workspace true cwd (d :: rest) =
      match runArtifacts w fuel workspace true cwd rest with
      | none => none
      | some (evs, outcome) =>
        some (.resolveCall d.name :: .warn (noFilesMessage d.name) :: evs, outcome)) ∧
    runArtifacts w fuel workspace false cwd (d :: rest) =
      some ([.resolveCall d.name], some (noFilesMessage d.name)) := by
  constructor
  · show (match resolveInputPathsToFiles w fuel workspace d.paths with
      | none => none
      | some (.error e) => some ([Event.resolveCall d.name], some e)
      | some (.ok (files, _)) => _) = _
    rw [h]
    rfl
  · show (match resolveInputPathsToFiles w fuel workspace d.paths with
      | none => none
      | some (.error e) => some ([Event.resolveCall d.name], some e)
      | some (.ok (files, _)) => _) = _
    rw [h]
    rfl

/-- Witness for C1: a definition matching nothing, followed by one that
matches a file, under both policies. -/
theorem claimC1_witness :
    resolveInputPathsToFiles wRich 10 "/w"
      (ArtifactDef.mk "logs" ["missing"]).paths =
      some (.ok ([], ["Path not found, skipping: missing"])) ∧
    ((runArtifacts wRich 10 "/w" true "/cwd"
        [⟨"logs", ["missing"]⟩, ⟨"r", ["a"]⟩] =
      match runArtifacts wRich 10 "/w" true "/cwd" [⟨"r", ["a"]⟩] with
      | none => none
      | some (evs, outcome) =>
        some (.resolveCall "logs" :: .warn (noFilesMessage "logs") :: evs, outcome)) ∧
    runArtifacts wRich 10 "/w" false "/cwd"
        [⟨"logs", ["missing"]⟩, ⟨"r", ["a"]⟩] =
      some ([.resolveCall "logs"], some (noFilesMessage "logs"))) := by
  refine ⟨rfl, ?_⟩
  exact claimC1_zero_file_policy wRich 10 "/w" "/cwd" ⟨"logs", ["missing"]⟩
    [⟨"r", ["a"]⟩] ["Path not found, skipping: missing"] rfl

/-- C9: the literal-versus-wildcard classification runs on the anchored
absolute path, not the raw pattern: `file.txt` has no glob
metacharacters, but anchored to the base `/w(1)` it does, so under that
base the untouched on-disk file is glob-expanded (matching nothing)
instead of probed, while under the metacharacter-free base `/w1` the
same pattern is probed literally and found. -/
theorem claimC9_classification_anchored :
    hasGlobChars "file.txt" = false ∧
    anchorPath "/w(1)" "file.txt" = "/w(1)/file.txt" ∧
    hasGlobChars "/w(1)/file.txt" = true ∧
    pathExists wParen "/w(1)/file.txt" = true ∧
    resolveInputPathsToFiles wParen 5 "/w(1)" ["file.txt"] =
      some (.ok ([], ["Glob did not match any files or directories: file.txt"])) ∧
    resolveInputPathsToFiles wParen 5 "/w1" ["file.txt"] =
      some (.ok (["/w1/file.txt"], [])) := by
  exact ⟨by decide, rfl, by decide, rfl, rfl, rfl⟩
/-- A syntactically empty object at the head of the validation loop is
skipped outright. -/
theorem ensureItems_cons_emptyObj (i : Nat) (ys : List JsonVal) :
    ensureItems i (.obj [] :: ys) = ensureItems (i + 1) ys := rfl

/-- The starting index of the validation loop only affects error
messages, never whether validation succeeds or what it produces. -/
theorem ensureItems_toOption_index (items : List JsonVal) :
    ∀ i j, (ensureItems i items).toOption = (ensureItems j items).toOption := by
  induction items with
  | nil => intro i j; rfl
  | cons item rest ih =>
    intro i j
    unfold ensureItems
    by_cases h1 : ¬ (jsTruthy item ∧ jsTypeofObject item)
    · rw [if_pos h1, if_pos h1]
      rfl
    · rw [if_neg h1, if_neg h1]
      by_cases h2 : jsKeyCount item = 0
      · rw [if_pos h2, if_pos h2]
        exact ih (i + 1) (j + 1)
      · rw [if_neg h2, if_neg h2]
        by_cases h3 : ¬ isString (jsGetField item "name") ∨
            (jsTrim (jsToString ((jsGetField item "name").getD .null))).length = 0
        · rw [if_pos h3, if_pos h3]
          rfl
        · rw [if_neg h3, if_neg h3]
          by_cases h4 : (toPathArray (jsGetField item "path")).length = 0
          · rw [if_pos h4, if_pos h4]
          · rw [if_neg h4, if_neg h4]
            have hrec := ih (i + 1) (j + 1)
            cases hi : ensureItems (i + 1) rest with
            | error e =>
              cases hj : ensureItems (j + 1) rest with
              | error e2 => rfl
              | ok defs2 =>
                rw [hi, hj] at hrec
                exact absurd hrec (by simp [Except.toOption])
            | ok defs =>
              cases hj : ensureItems (j + 1) rest with
              | error e2 =>
                rw [hi, hj] at hrec
                exact absurd hrec (by simp [Except.toOption])
              | ok defs2 =>
                rw [hi, hj] at hrec
                simp only [Except.toOption, Option.some_inj] at hrec
                simp only [Except.toOption]
                rw [hrec]

/-- C6: a syntactically empty object entry is silently ignored by
validation: dropping it changes neither whether validation succeeds nor
the artifact definitions produced (so it is never resolved); if the
configuration validates, the whole run is unchanged by its presence. -/
theorem claimC6_empty_object_ignored (xs ys : List JsonVal) :
    ((ensureArrayOfArtifacts (.arr (xs ++ .obj [] :: ys))).toOption =
      (ensureArrayOfArtifacts (.arr (xs ++ ys))).toOption) ∧
    (∀ (w : World) (fuel : Nat) (workspace coe cwd : String) (defs : List ArtifactDef),
      ensureArrayOfArtifacts (.arr (xs ++ .obj [] :: ys)) = .ok defs →
      runWithConfig w fuel workspace coe cwd (.arr (xs ++ .obj [] :: ys)) =
        runWithConfig w fuel workspace coe cwd (.arr (xs ++ ys))) := by
  have key : ∀ (l : List JsonVal) (i : Nat),
      (ensureItems i (l ++ .obj [] :: ys)).toOption =
        (ensureItems i (l ++ ys)).toOption := by
    intro l
    induction l with
    | nil =>
      intro i
      simp only [List.nil_append, ensureItems_cons_emptyObj]
      exact ensureItems_toOption_index ys (i + 1) i
    | cons x l ih =>
      intro i
      show (ensureItems i (x :: (l ++ .obj [] :: ys))).toOption =
        (ensureItems i (x :: (l ++ ys))).toOption
      unfold ensureItems
      by_cases h1 : ¬ (jsTruthy x ∧ jsTypeofObject x)
      · rw [if_pos h1, if_pos h1]
      · rw [if_neg h1, if_neg h1]
        by_cases h2 : jsKeyCount x = 0
        · rw [if_pos h2, if_pos h2]
          exact ih (i + 1)
        · rw [if_neg h2, if_neg h2]
          by_cases h3 : ¬ isString (jsGetField x "name") ∨
              (jsTrim (jsToString ((jsGetField x "name").getD .null))).length = 0
          · rw [if_pos h3, if_pos h3]
          · rw [if_neg h3, if_neg h3]
            by_cases h4 : (toPathArray (jsGetField x "path")).length = 0
            · rw [if_pos h4, if_pos h4]
            · rw [if_neg h4, if_neg h4]
              have hrec := ih (i + 1)
              cases hi : ensureItems (i + 1) (l ++ .obj [] :: ys) with
              | error e =>
                cases hj : ensureItems (i + 1) (l ++ ys) with
                | error e2 => rfl
                | ok defs2 =>
                  rw [hi, hj] at hrec
                  exact absurd hrec (by simp [Except.toOption])
              | ok defs =>
                cases hj : ensureItems (i + 1) (l ++ ys) with
                | error e2 =>
                  rw [hi, hj] at hrec
                  exact absurd hrec (by simp [Except.toOption])
                | ok defs2 =>
                  rw [hi, hj] at hrec
                  simp only [Except.toOption, Option.some_inj] at hrec
                  simp only [Except.toOption]
                  rw [hrec]
  have keyTop := key xs 0
  refine ⟨keyTop, fun w fuel workspace coe cwd defs hok => ?_⟩
  have hok2 : ensureArrayOfArtifacts (.arr (xs ++ ys)) = .ok defs := by
    show ensureItems 0 (xs ++ ys) = .ok defs
    have h1 : (ensureItems 0 (xs ++ .obj [] :: ys)).toOption = some defs := by
      have hok1 : ensureItems 0 (xs ++ .obj [] :: ys) = .ok defs := hok
      rw [hok1]
      rfl
    have h2 := keyTop.symm.trans h1
    cases hcase : ensureItems 0 (xs ++ ys) with
    | error e => rw [hcase] at h2; exact absurd h2 (by simp [Except.toOption])
    | ok defs2 =>
      rw [hcase] at h2
      simp only [Except.toOption, Option.some_inj] at h2
      rw [h2]
  unfold runWithConfig
  rw [hok, hok2]

/-- Counterexample to C7 as stated: the configuration `[{}]` has an
entry lacking a non-empty name string, yet the run does not fail — the
entry is silently skipped and the run exits cleanly. -/
theorem claimC7_counterexample :
    ensureArrayOfArtifacts (.arr [.obj []]) = .ok [] ∧
    runWithConfig wRich 5 "/w" "" "/cwd" (.arr [.obj []]) =
      some ([.info "No artifacts to upload. Exiting."], none) := ⟨rfl, rfl⟩

/-- C7 (amended): validation happens once, completely, before any
resolution — a validation error makes the run fail fatally with no
events at all, so no path resolution or upload is performed for any
definition; and any entry that is not an object, or is an object with at
least one key but no valid name string or no normalisable path pattern,
makes validation fail (syntactically empty objects are exempt: they are
silently skipped, see C6). -/
theorem claimC7_validation_before_resolution :
    (∀ (w : World) (fuel : Nat) (workspace coe cwd : String)
      (parsed : JsonVal) (e : String),
      ensureArrayOfArtifacts parsed = .error e →
      runWithConfig w fuel workspace coe cwd parsed = some ([], some e)) ∧
    (∀ (items : List JsonVal) (item : JsonVal), item ∈ items →
      (¬ (jsTruthy item ∧ jsTypeofObject item) ∨
        (jsKeyCount item ≠ 0 ∧
          ((¬ isString (jsGetField item "name") ∨
            (jsTrim (jsToString ((jsGetField item "name").getD .null))).length = 0) ∨
            toPathArray (jsGetField item "path") = []))) →
      ∃ e, ensureArrayOfArtifacts (.arr items) = .error e) := by
  constructor
  · intro w fuel workspace coe cwd parsed e h
    unfold runWithConfig
    rw [h]
  · have key : ∀ (items : List JsonVal) (i : Nat) (item : JsonVal), item ∈ items →
        (¬ (jsTruthy item ∧ jsTypeofObject item) ∨
          (jsKeyCount item ≠ 0 ∧
            ((¬ isString (jsGetField item "name") ∨
              (jsTrim (jsToString ((jsGetField item "name").getD .null))).length = 0) ∨
              toPathArray (jsGetField item "path") = []))) →
        ∃ e, ensureItems i items = .error e := by
      intro items
      induction items with
      | nil => intro i item hmem; exact absurd hmem (List.not_mem_nil item)
      | cons x rest ih =>
        intro i item hmem hbad
        unfold ensureItems
        by_cases h1 : ¬ (jsTruthy x ∧ jsTypeofObject x)
        · exact ⟨_, if_pos h1⟩
        · rw [if_neg h1]
          rcases List.mem_cons.mp hmem with heq | hrest
          · subst heq
            rcases hbad with hb1 | ⟨hb2, hb3⟩
            · exact absurd (not_not.mp h1) hb1
            · rw [if_neg hb2]
              by_cases h3 : ¬ isString (jsGetField item "name") ∨
                  (jsTrim (jsToString ((jsGetField item "name").getD .null))).length = 0
              · exact ⟨_, if_pos h3⟩
              · rcases hb3 with hb4 | hb5
                · exact absurd hb4 h3
                · rw [if_neg h3]
                  exact ⟨_, if_pos
                    (by rw [hb5]; rfl : (toPathArray (jsGetField item "path")).length = 0)⟩
          · by_cases h2 : jsKeyCount x = 0
            · rw [if_pos h2]
              exact ih (i + 1) item hrest hbad
            · rw [if_neg h2]
              by_cases h3 : ¬ isString (jsGetField x "name") ∨
                  (jsTrim (jsToString ((jsGetField x "name").getD .null))).length = 0
              · exact ⟨_, if_pos h3⟩
              · rw [if_neg h3]
                by_cases h4 : (toPathArray (jsGetField x "path")).length = 0
                · exact ⟨_, if_pos h4⟩
                · rw [if_neg h4]
                  obtain ⟨e, he⟩ := ih (i + 1) item hrest hbad
                  rw [he]
                  exact ⟨e, rfl⟩
    intro items item hmem hbad
    exact key items 0 item hmem hbad

/-- Witness for C6: the configuration `[{name:"x",path:"p"}, {}]`
validates to the single definition and runs exactly like the
configuration without the empty object. -/
theorem claimC6_witness :
    ensureArrayOfArtifacts
      (.arr ([.obj [("name", .str "x"), ("path", .str "p")]] ++ .obj [] :: [])) =
      .ok [⟨"x", ["p"]⟩] ∧
    runWithConfig wCalm 1 "/w" "" "/cwd"
        (.arr ([.obj [("name", .str "x"), ("path", .str "p")]] ++ .obj [] :: [])) =
      runWithConfig wCalm 1 "/w" "" "/cwd"
        (.arr ([.obj [("name", .str "x"), ("path", .str "p")]] ++ [])) := by
  refine ⟨rfl, ?_⟩
  exact (claimC6_empty_object_ignored
    [.obj [("name", .str "x"), ("path", .str "p")]] []).2
    wCalm 1 "/w" "" "/cwd" [⟨"x", ["p"]⟩] rfl

/-- Witness for C7: a non-array configuration fails fatally with no
events, and an object entry with a key but no path patterns makes
validation fail. -/
theorem claimC7_witness :
    runWithConfig wCalm 1 "/w" "" "/cwd" (.str "nope") =
      some ([], some "Config JSON must be an array of artifact definitions.") ∧
    (∃ e, ensureArrayOfArtifacts (.arr [.obj [("name", .str "x")]]) = .error e) := by
  constructor
  · exact claimC7_validation_before_resolution.1 wCalm 1 "/w" "" "/cwd" (.str "nope") _ rfl
  · exact claimC7_validation_before_resolution.2 [.obj [("name", .str "x")]]
      (.obj [("name", .str "x")]) (List.mem_cons_self _ _)
      (Or.inr ⟨by decide, Or.inr rfl⟩)

/-- Counterexample to C5 as stated: a filesystem error thrown by
`readdir` while recursively walking the directory `d` is not caught by
the resolver; it aborts resolution with an error that the grouper turns
into a fatal failure, even under `continueOnError = true`. -/
theorem claimC5_counterexample :
    resolveInputPathsToFiles wRich 10 "/w" ["d"] =
      some (.error "EACCES: permission denied") ∧
    runArtifacts wRich 10 "/w" true "/cwd" [⟨"docs", ["d"]⟩] =
      some ([.resolveCall "docs"], some "EACCES: permission denied") := ⟨rfl, rfl⟩

/-- When every directory walk succeeds, walking any list of matched
directories succeeds. -/
theorem walkDirsAccum_ok (w : World) (fuel : Nat)
    (hwalk : ∀ d, ∃ fs, collectFilesFromDirectory w fuel d = some (.ok fs)) :
    ∀ dirs acc, ∃ out, walkDirsAccum w fuel dirs acc = some (.ok out) := by
  intro dirs
  induction dirs with
  | nil => intro acc; exact ⟨acc, rfl⟩
  | cons d ds ih =>
    intro acc
    obtain ⟨fs, hfs⟩ := hwalk d
    obtain ⟨out, hout⟩ := ih (acc ++ fs)
    refine ⟨out, ?_⟩
    show (match collectFilesFromDirectory w fuel d with
      | none => none
      | some (Except.error e) => some (Except.error e)
      | some (Except.ok dirFiles) => walkDirsAccum w fuel ds (acc ++ dirFiles)) = _
    rw [hfs]
    exact hout

/-- When every directory walk succeeds, resolving one pattern never
fails. -/
theorem resolveOne_ok (w : World) (fuel : Nat) (workspace input : String)
    (hwalk : ∀ d, ∃ fs, collectFilesFromDirectory w fuel d = some (.ok fs)) :
    ∃ pr, resolveOne w fuel workspace input = some (.ok pr) := by
  unfold resolveOne
  by_cases hg : hasGlobChars (anchorPath workspace input) = true
  · rw [if_pos hg]
    obtain ⟨df, hdf⟩ := walkDirsAccum_ok w fuel hwalk
      (w.globDirs (anchorPath workspace input)) []
    rw [hdf]
    exact ⟨_, rfl⟩
  · rw [if_neg hg]
    by_cases he : pathExists w (anchorPath workspace input) = true
    · rw [if_neg (by simp [he])]
      cases hs : statSafe w (anchorPath workspace input) with
      | none => exact ⟨_, rfl⟩
      | some st =>
        dsimp only
        by_cases hd : st.isDirectory = true
        · rw [if_pos hd]
          obtain ⟨fs, hfs⟩ := hwalk (anchorPath workspace input)
          rw [hfs]
          dsimp only
          by_cases hne : fs.isEmpty = true
          · rw [if_pos hne]
            exact ⟨_, rfl⟩
          · rw [if_neg hne]
            exact ⟨_, rfl⟩
        · rw [if_neg hd]
          by_cases hf : st.isFile = true
          · rw [if_pos hf]
            exact ⟨_, rfl⟩
          · rw [if_neg hf]
            exact ⟨_, rfl⟩
    · rw [if_pos (by simpa using he)]
      exact ⟨_, rfl⟩

/-- When every directory walk succeeds, the pattern loop never fails. -/
theorem resolveGo_ok (w : World) (fuel : Nat) (workspace : String)
    (hwalk : ∀ d, ∃ fs, collectFilesFromDirectory w fuel d = some (.ok fs)) :
    ∀ inputs files warns, ∃ out,
      resolveGo w fuel workspace inputs files warns = some (.ok out) := by
  intro inputs
  induction inputs with
  | nil => intro files warns; exact ⟨_, rfl⟩
  | cons input rest ih =>
    intro files warns
    obtain ⟨pr, hpr⟩ := resolveOne_ok w fuel workspace input hwalk
    obtain ⟨out, hout⟩ := ih (files ++ pr.1) (warns ++ pr.2)
    refine ⟨out, ?_⟩
    show (match resolveOne w fuel workspace input with
      | none => none
      | some (Except.error e) => some (Except.error e)
      | some (Except.ok (fs, ws)) =>
        resolveGo w fuel workspace rest (files ++ fs) (warns ++ ws)) = _
    rw [hpr]
    exact hout

/-- C5 (amended): each resolution diagnostic — glob with no matches,
missing path, unreadable path, empty directory, non-regular entity —
only logs its warning and skips the pattern, and resolution continues
with the remaining patterns; moreover the resolver raises no fatal error
as long as every directory walk it performs succeeds.  (As stated the
claim is false: a filesystem error thrown by `readdir` during a
recursive directory walk is not caught and aborts resolution fatally,
see the counterexample.) -/
theorem claimC5_amended (w : World) (fuel : Nat) (workspace input : String)
    (rest files warns : List String) :
    ((hasGlobChars (anchorPath workspace input) = true →
      w.globFiles (anchorPath workspace input) = [] →
      w.globDirs (anchorPath workspace input) = [] →
      resolveGo w fuel workspace (input :: rest) files warns =
        resolveGo w fuel workspace rest files
          (warns ++ ["Glob did not match any files or directories: " ++ input])) ∧
     (hasGlobChars (anchorPath workspace input) = false →
      pathExists w (anchorPath workspace input) = false →
      resolveGo w fuel workspace (input :: rest) files warns =
        resolveGo w fuel workspace rest files
          (warns ++ ["Path not found, skipping: " ++ input])) ∧
     (hasGlobChars (anchorPath workspace input) = false →
      pathExists w (anchorPath workspace input) = true →
      statSafe w (anchorPath workspace input) = none →
      resolveGo w fuel workspace (input :: rest) files warns =
        resolveGo w fuel workspace rest files
          (warns ++ ["Unable to stat path, skipping: " ++ input])) ∧
     (∀ st : Stat, hasGlobChars (anchorPath workspace input) = false →
      pathExists w (anchorPath workspace input) = true →
      statSafe w (anchorPath workspace input) = some st →
      st.isDirectory = true →
      collectFilesFromDirectory w fuel (anchorPath workspace input) = some (.ok []) →
      resolveGo w fuel workspace (input :: rest) files warns =
        resolveGo w fuel workspace rest files
          (warns ++ ["Directory is empty, skipping: " ++ input])) ∧
     (∀ st : Stat, hasGlobChars (anchorPath workspace input) = false →
      pathExists w (anchorPath workspace input) = true →
      statSafe w (anchorPath workspace input) = some st →
      st.isDirectory = false → st.isFile = false →
      resolveGo w fuel workspace (input :: rest) files warns =
        resolveGo w fuel workspace rest files
          (warns ++ ["Not a regular file or directory, skipping: " ++ input]))) ∧
    ((∀ d, ∃ fs, collectFilesFromDirectory w fuel d = some (.ok fs)) →
      ∀ inputs, ∃ out,
        resolveInputPathsToFiles w fuel workspace inputs = some (.ok out)) := by
  have step : ∀ msg, resolveOne w fuel workspace input = some (.ok ([], [msg])) →
      resolveGo w fuel workspace (input :: rest) files warns =
        resolveGo w fuel workspace rest files (warns ++ [msg]) := by
    intro msg hone
    show (match resolveOne w fuel workspace input with
      | none => none
      | some (Except.error e) => some (Except.error e)
      | some (Except.ok (fs, ws)) =>
        resolveGo w fuel workspace rest (files ++ fs) (warns ++ ws)) = _
    rw [hone]
    dsimp only
    rw [List.append_nil]
  refine ⟨⟨?_, ?_, ?_, ?_, ?_⟩,
    fun hwalk inputs => resolveGo_ok w fuel workspace hwalk inputs [] []⟩
  · intro hg hf hd
    refine step _ ?_
    unfold resolveOne
    rw [if_pos hg, hd, hf]
    rfl
  · intro hg he
    refine step _ ?_
    unfold resolveOne
    rw [if_neg (by simp [hg]), if_pos (by simp [he])]
  · intro hg he hs
    refine step _ ?_
    unfold resolveOne
    rw [if_neg (by simp [hg]), if_neg (by simp [he]), hs]
  · intro st hg he hs hd hwalk
    refine step _ ?_
    unfold resolveOne
    rw [if_neg (by simp [hg]), if_neg (by simp [he]), hs]
    dsimp only
    rw [if_pos hd, hwalk]
    rfl
  · intro st hg he hs hd hf
    refine step _ ?_
    unfold resolveOne
    rw [if_neg (by simp [hg]), if_neg (by simp [he]), hs]
    dsimp only
    rw [if_neg (by simp [hd]), if_neg (by simp [hf])]

/-- Witness for C5: each of the five diagnostics exercised concretely in
`wRich`, plus a world with only successful walks in which resolution
always succeeds. -/
theorem claimC5_witness :
    (resolveGo wRich 10 "/w" ["nomatch*"] [] [] =
      resolveGo wRich 10 "/w" [] []
        ["Glob did not match any files or directories: nomatch*"]) ∧
    (resolveGo wRich 10 "/w" ["missing"] [] [] =
      resolveGo wRich 10 "/w" [] [] ["Path not found, skipping: missing"]) ∧
    (resolveGo wRich 10 "/w" ["odd"] [] [] =
      resolveGo wRich 10 "/w" [] [] ["Unable to stat path, skipping: odd"]) ∧
    (resolveGo wRich 10 "/w" ["empty"] [] [] =
      resolveGo wRich 10 "/w" [] [] ["Directory is empty, skipping: empty"]) ∧
    (resolveGo wRich 10 "/w" ["sock"] [] [] =
      resolveGo wRich 10 "/w" [] []
        ["Not a regular file or directory, skipping: sock"]) ∧
    (∃ out, resolveInputPathsToFiles wCalm 1 "/w" ["a", "*.x"] = some (.ok out)) := by
  refine ⟨?_, ?_, ?_, ?_, ?_, ?_⟩
  · exact (claimC5_amended wRich 10 "/w" "nomatch*" [] [] []).1.1 rfl rfl rfl
  · exact (claimC5_amended wRich 10 "/w" "missing" [] [] []).1.2.1 rfl rfl
  · exact (claimC5_amended wRich 10 "/w" "odd" [] [] []).1.2.2.1 rfl rfl rfl
  · exact (claimC5_amended wRich 10 "/w" "empty" [] [] []).1.2.2.2.1
      ⟨true, false⟩ rfl rfl rfl rfl rfl
  · exact (claimC5_amended wRich 10 "/w" "sock" [] [] []).1.2.2.2.2
      ⟨false, false⟩ rfl rfl rfl rfl rfl
  · exact (claimC5_amended wCalm 1 "/w" "" [] [] []).2
      (fun d => ⟨[], rfl⟩) ["a", "*.x"]

/-! ## Split/join round-trip lemmas -/

/-- Unfolding equation of `splitChars` at a cons cell. -/
theorem splitChars_cons (sep c : Char) (cs : List Char) :
    splitChars sep (c :: cs) =
      match splitChars sep cs with
      | [] => [[c]]
      | grp :: rest => if c = sep then [] :: grp :: rest else (c :: grp) :: rest := rfl

/-- Splitting never yields the empty list of groups. -/
theorem splitChars_ne_nil (sep : Char) (cs : List Char) : splitChars sep cs ≠ [] := by
  induction cs with
  | nil => simp [splitChars]
  | cons c cs ih =>
    rw [splitChars_cons]
    cases h : splitChars sep cs with
    | nil => simp
    | cons g rest => by_cases hc : c = sep <;> simp [hc]

/-- Splitting a string that starts with the separator produces a
leading empty group. -/
theorem splitChars_sep_cons (sep : Char) (cs : List Char) :
    splitChars sep (sep :: cs) = [] :: splitChars sep cs := by
  rw [splitChars_cons]
  cases h : splitChars sep cs with
  | nil => exact absurd h (splitChars_ne_nil sep cs)
  | cons g rest => simp

/-- A separator-free character list splits into itself. -/
theorem splitChars_no_sep (sep : Char) (cs : List Char) (h : sep ∉ cs) :
    splitChars sep cs = [cs] := by
  induction cs with
  | nil => rfl
  | cons c cs ih =>
    have hc : c ≠ sep := fun he => h (he ▸ List.mem_cons_self c cs)
    have hrest : sep ∉ cs := fun hm => h (List.mem_cons_of_mem c hm)
    rw [splitChars_cons, ih hrest]
    simp [hc]

/-- Splitting after a separator-free leading group. -/
theorem splitChars_group_append (sep : Char) (g cs : List Char) (hg : sep ∉ g) :
    splitChars sep (g ++ sep :: cs) = g :: splitChars sep cs := by
  induction g with
  | nil => simpa using splitChars_sep_cons sep cs
  | cons c g ih =>
    have hc : c ≠ sep := fun he => hg (he ▸ List.mem_cons_self c g)
    have hg2 : sep ∉ g := fun hm => hg (List.mem_cons_of_mem c hm)
    show splitChars sep (c :: (g ++ sep :: cs)) = (c :: g) :: splitChars sep cs
    rw [splitChars_cons, ih hg2]
    simp [hc]

/-- Splitting inverts joining for separator-free groups. -/
theorem splitChars_join (sep : Char) (l : List (List Char)) (hne : l ≠ [])
    (hfree : ∀ g ∈ l, sep ∉ g) : splitChars sep (joinChars sep l) = l := by
  induction l with
  | nil => exact absurd rfl hne
  | cons g gs ih =>
    cases gs with
    | nil => exact splitChars_no_sep sep g (hfree g (List.mem_cons_self g []))
    | cons g2 gs2 =>
      show splitChars sep (g ++ sep :: joinChars sep (g2 :: gs2)) = _
      rw [splitChars_group_append sep g _ (hfree g (List.mem_cons_self g _))]
      rw [ih (by simp) (fun x hx => hfree x (List.mem_cons_of_mem g hx))]

/-- Every group produced by splitting is separator-free. -/
theorem mem_splitChars_sep_free (sep : Char) (cs : List Char) :
    ∀ g ∈ splitChars sep cs, sep ∉ g := by
  induction cs with
  | nil =>
    intro g hg
    simp [splitChars] at hg
    subst hg
    simp
  | cons c cs ih =>
    intro g hg
    rw [splitChars_cons] at hg
    cases h : splitChars sep cs with
    | nil => exact absurd h (splitChars_ne_nil sep cs)
    | cons g0 rest =>
      rw [h] at hg
      dsimp only at hg
      by_cases hc : c = sep
      · rw [if_pos hc] at hg
        rcases List.mem_cons.mp hg with hg1 | hg2
        · subst hg1; simp
        · exact ih g (h ▸ hg2)
      · rw [if_neg hc] at hg
        rcases List.mem_cons.mp hg with hg1 | hg2
        · subst hg1
          intro hmem
          rcases List.mem_cons.mp hmem with h1 | h2
          · exact hc h1.symm
          · exact ih g0 (h ▸ List.mem_cons_self g0 rest) h2
        · exact ih g (h ▸ List.mem_cons_of_mem g0 hg2)

/-- Rebuilding each string from its characters is the identity. -/
theorem map_mk_data (l : List String) : (l.map String.data).map String.mk = l := by
  induction l with
  | nil => rfl
  | cons s rest ih => simp [ih]

/-- String-level split/join round trip for separator-free segments. -/
theorem splitSegs_segsJoin (sep : Char) (l : List String) (hne : l ≠ [])
    (hfree : ∀ s ∈ l, sep ∉ s.data) : splitSegs sep (segsJoin sep l) = l := by
  unfold splitSegs segsJoin
  rw [show (String.mk (joinChars sep (l.map String.data))).data =
    joinChars sep (l.map String.data) from rfl]
  rw [splitChars_join sep (l.map String.data) (by simpa using hne)
    (by intro g hg; obtain ⟨s, hs, rfl⟩ := List.mem_map.mp hg; exact hfree s hs)]
  exact map_mk_data l

/-! ## Lemmas about `normSegs` -/

/-- Unfolding equation of `normSegs` at a cons cell. -/
theorem normSegs_cons (b : Bool) (acc : List String) (s : String) (rest : List String) :
    normSegs b acc (s :: rest) =
      if s = "" ∨ s = "." then normSegs b acc rest
      else if s = ".." then
        if acc ≠ [] ∧ acc.getLast? ≠ some ".." then normSegs b acc.dropLast rest
        else if b then normSegs b (acc ++ [".."]) rest
        else normSegs b acc rest
      else normSegs b (acc ++ [s]) rest := rfl

/-- On a list without dot segments, `normSegs` appends the non-empty
segments to the accumulator. -/
theorem normSegs_all_plain (b : Bool) (l : List String)
    (hl : ∀ s ∈ l, s ≠ "." ∧ s ≠ "..") :
    ∀ acc, normSegs b acc l = acc ++ l.filter (fun s => s ≠ "") := by
  induction l with
  | nil => intro acc; simp [normSegs]
  | cons s rest ih =>
    intro acc
    have hs := hl s (List.mem_cons_self s rest)
    have hrest : ∀ x ∈ rest, x ≠ "." ∧ x ≠ ".." :=
      fun x hx => hl x (List.mem_cons_of_mem s hx)
    rw [normSegs_cons]
    by_cases he : s = ""
    · rw [if_pos (Or.inl he), ih hrest acc]
      simp [he]
    · rw [if_neg (by simp [he, hs.1]), if_neg hs.2, ih hrest (acc ++ [s])]
      simp [he]

/-- With `allowAboveRoot = false`, every output segment of `normSegs`
is a good segment provided the accumulator's are. -/
theorem normSegs_good (sep : Char) (l : List String)
    (hfree : ∀ s ∈ l, sep ∉ s.data) :
    ∀ acc, (∀ s ∈ acc, GoodSeg sep s) →
      ∀ s ∈ normSegs false acc l, GoodSeg sep s := by
  induction l with
  | nil =>
    intro acc hacc
    simpa [normSegs] using hacc
  | cons s rest ih =>
    intro acc hacc
    have hsf := hfree s (List.mem_cons_self s rest)
    have hrf : ∀ x ∈ rest, sep ∉ x.data :=
      fun x hx => hfree x (List.mem_cons_of_mem s hx)
    rw [normSegs_cons]
    by_cases h1 : s = "" ∨ s = "."
    · rw [if_pos h1]
      exact ih hrf acc hacc
    · rw [if_neg h1]
      by_cases h2 : s = ".."
      · rw [if_pos h2]
        by_cases h3 : acc ≠ [] ∧ acc.getLast? ≠ some ".."
        · rw [if_pos h3]
          refine ih hrf acc.dropLast (fun x hx => hacc x ?_)
          exact List.dropLast_subset acc hx
        · rw [if_neg h3]
          show ∀ x ∈ (if false then normSegs false (acc ++ [".."]) rest
            else normSegs false acc rest), GoodSeg sep x
          rw [if_neg (by simp)]
          exact ih hrf acc hacc
      · rw [if_neg h2]
        refine ih hrf (acc ++ [s]) ?_
        intro x hx
        rcases List.mem_append.mp hx with hx1 | hx2
        · exact hacc x hx1
        · rw [List.mem_singleton] at hx2
          subst hx2
          exact ⟨fun hc => h1 (Or.inl hc), fun hc => h1 (Or.inr hc), h2, hsf⟩

/-- Every segment of a resolved POSIX path is good. -/
theorem resolveSegsP_good (cwd p : String) :
    ∀ s ∈ resolveSegsP cwd p, GoodSeg '/' s := by
  unfold resolveSegsP
  refine normSegs_good '/' _ ?_ [] (by intro s hs; exact absurd hs (List.not_mem_nil s))
  intro s hs
  unfold splitSegs at hs
  obtain ⟨g, hg, rfl⟩ := List.mem_map.mp hs
  exact mem_splitChars_sep_free '/' _ g hg

/-! ## Helper lemmas for the character-level dirname -/

/-- A `dropWhile` whose head fails the predicate drops nothing. -/
theorem dropWhile_head_false {α : Type} (p : α → Bool) (x : α) (xs : List α)
    (h : p x = false) : (x :: xs).dropWhile p = x :: xs := by
  simp [List.dropWhile_cons, h]

/-- A `dropWhile` over a satisfied block continues past it. -/
theorem dropWhile_all_append {α : Type} (p : α → Bool) (xs ys : List α)
    (h : ∀ x ∈ xs, p x = true) : (xs ++ ys).dropWhile p = ys.dropWhile p := by
  induction xs with
  | nil => rfl
  | cons a as ih =>
    simp only [List.cons_append, List.dropWhile_cons, h a (List.mem_cons_self a as),
      if_true]
    exact ih (fun x hx => h x (List.mem_cons_of_mem a hx))

/-- Unfolding of `joinChars` with two or more groups. -/
theorem joinChars_cons2 (sep : Char) (g g2 : List Char) (gs : List (List Char)) :
    joinChars sep (g :: g2 :: gs) = g ++ sep :: joinChars sep (g2 :: gs) := rfl

/-- Joining a final group appends it after a separator. -/
theorem joinChars_append_last (sep : Char) (l : List (List Char)) (g : List Char)
    (hl : l ≠ []) : joinChars sep (l ++ [g]) = joinChars sep l ++ sep :: g := by
  induction l with
  | nil => exact absurd rfl hl
  | cons a as ih =>
    cases as with
    | nil => rfl
    | cons a2 as2 =>
      show joinChars sep (a :: ((a2 :: as2) ++ [g])) = _
      rw [show (a2 :: as2) ++ [g] = a2 :: (as2 ++ [g]) from rfl]
      rw [joinChars_cons2, joinChars_cons2]
      rw [show a2 :: (as2 ++ [g]) = (a2 :: as2) ++ [g] from rfl]
      rw [ih (by simp)]
      simp

/-- A join headed by a non-empty group is non-empty. -/
theorem joinChars_ne_nil (sep : Char) (g : List Char) (gs : List (List Char))
    (hg : g ≠ []) : joinChars sep (g :: gs) ≠ [] := by
  cases gs with
  | nil => simpa [joinChars] using hg
  | cons g2 gs2 =>
    rw [joinChars_cons2]
    simp [hg]

/-- Unfolding equation of `dirnameCore` at a non-empty path. -/
theorem dirnameCore_cons (sep : Char) (special : Bool) (c0 : Char) (t : List Char) :
    dirnameCore sep special (String.mk (c0 :: t)) =
      match ((c0 :: t).reverse.dropWhile (fun c => c = sep)).dropWhile
          (fun c => c ≠ sep) with
      | [] => if c0 = sep then String.mk [sep] else "."
      | _ :: kept =>
        if kept = [] then (if c0 = sep then String.mk [sep] else ".")
        else if special ∧ c0 = sep ∧ kept = [sep] then String.mk [sep, sep]
        else String.mk kept.reverse := rfl

/-- The dirname of the bare root is the root. -/
theorem dirnameCore_sep_only (sep : Char) (special : Bool) :
    dirnameCore sep special (String.mk [sep]) = String.mk [sep] := by
  rw [show (String.mk [sep] : String) = String.mk (sep :: ([] : List Char)) from rfl]
  rw [dirnameCore_cons]
  rw [show (sep :: ([] : List Char)).reverse = [sep] from rfl]
  rw [show (([sep] : List Char).dropWhile (fun c => c = sep)) = [] from by simp]
  rw [show (([] : List Char).dropWhile (fun c => c ≠ sep)) = [] from rfl]
  simp

/-- The dirname of a root plus a single separator-free segment is the
root. -/
theorem dirnameCore_single (sep : Char) (special : Bool) (s : String)
    (hne : s ≠ "") (hfree : sep ∉ s.data) :
    dirnameCore sep special (String.mk (sep :: s.data)) = String.mk [sep] := by
  rw [dirnameCore_cons]
  have hd : s.data ≠ [] := by
    intro h
    apply hne
    cases s with
    | mk data => simp at h; rw [h]
  obtain ⟨x, xs, hx⟩ : ∃ x xs, s.data.reverse = x :: xs := by
    cases hrev : s.data.reverse with
    | nil =>
      exact absurd (by simpa using congrArg List.reverse hrev) hd
    | cons x xs => exact ⟨x, xs, rfl⟩
  have hmemrev : ∀ c ∈ s.data.reverse, c ≠ sep := by
    intro c hc he
    exact hfree (he ▸ (List.mem_reverse.mp hc))
  rw [List.reverse_cons, hx]
  rw [show (x :: xs) ++ [sep] = x :: (xs ++ [sep]) from rfl]
  rw [dropWhile_head_false _ x _
    (by simp [hmemrev x (hx ▸ List.mem_cons_self x xs)])]
  rw [show x :: (xs ++ [sep]) = (x :: xs) ++ [sep] from rfl]
  rw [dropWhile_all_append _ (x :: xs) [sep]
    (by intro c hc; simp [hmemrev c (hx ▸ hc)])]
  rw [dropWhile_head_false _ sep [] (by simp)]
  dsimp only
  rw [if_pos rfl, if_pos rfl]

/-- The dirname of a root plus two or more separator-free segments
drops the final segment. -/
theorem dirnameCore_multi (sep : Char) (special : Bool) (init : List String)
    (lastS : String) (hinit : init ≠ [])
    (hgood : ∀ s ∈ init, s ≠ "" ∧ sep ∉ s.data)
    (hlast_ne : lastS ≠ "") (hlast_free : sep ∉ lastS.data) :
    dirnameCore sep special
      (String.mk (sep :: joinChars sep ((init ++ [lastS]).map String.data))) =
      String.mk (sep :: joinChars sep (init.map String.data)) := by
  obtain ⟨i0, irest, rfl⟩ : ∃ i0 irest, init = i0 :: irest := by
    cases init with
    | nil => exact absurd rfl hinit
    | cons a b => exact ⟨a, b, rfl⟩
  have hmap : (((i0 :: irest) ++ [lastS]).map String.data) =
      ((i0 :: irest).map String.data) ++ [lastS.data] := by simp
  rw [hmap, joinChars_append_last sep _ lastS.data (by simp)]
  rw [dirnameCore_cons]
  have hD : lastS.data ≠ [] := by
    intro h
    apply hlast_ne
    cases lastS with
    | mk data => simp at h; rw [h]
  have hJne : joinChars sep ((i0 :: irest).map String.data) ≠ [] := by
    have hi0 : i0.data ≠ [] := by
      intro h
      apply (hgood i0 (List.mem_cons_self i0 irest)).1
      cases i0 with
      | mk data => simp at h; rw [h]
    exact joinChars_ne_nil sep i0.data (irest.map String.data) hi0
  obtain ⟨x, xs, hx⟩ : ∃ x xs, lastS.data.reverse = x :: xs := by
    cases hrev : lastS.data.reverse with
    | nil => exact absurd (by simpa using congrArg List.reverse hrev) hD
    | cons x xs => exact ⟨x, xs, rfl⟩
  have hmemrev : ∀ c ∈ lastS.data.reverse, c ≠ sep := by
    intro c hc he
    exact hlast_free (he ▸ (List.mem_reverse.mp hc))
  have hrevform : (sep :: (joinChars sep ((i0 :: irest).map String.data) ++
      sep :: lastS.data)).reverse =
      (x :: xs) ++ (sep ::
        ((joinChars sep ((i0 :: irest).map String.data)).reverse ++ [sep])) := by
    rw [List.reverse_cons, List.reverse_append, List.reverse_cons, ← hx]
    simp
  rw [hrevform]
  rw [show (x :: xs) ++ (sep ::
      ((joinChars sep ((i0 :: irest).map String.data)).reverse ++ [sep])) =
    x :: (xs ++ (sep ::
      ((joinChars sep ((i0 :: irest).map String.data)).reverse ++ [sep]))) from rfl]
  rw [dropWhile_head_false _ x _
    (by simp [hmemrev x (hx ▸ List.mem_cons_self x xs)])]
  rw [show x :: (xs ++ (sep ::
      ((joinChars sep ((i0 :: irest).map String.data)).reverse ++ [sep]))) =
    (x :: xs) ++ (sep ::
      ((joinChars sep ((i0 :: irest).map String.data)).reverse ++ [sep])) from rfl]
  rw [dropWhile_all_append _ (x :: xs) _
    (by intro c hc; simp [hmemrev c (hx ▸ hc)])]
  rw [dropWhile_head_false _ sep _ (by simp)]
  dsimp only
  rw [if_neg (by simp), if_neg (by
    intro hcontra
    exact hJne (by simpa using hcontra.2.2))]
  rw [List.reverse_append, List.reverse_reverse]
  rfl

/-- Joining segments after a root slash, in `String.mk` form. -/
theorem slash_join_mk (l : List String) :
    ("/" : String) ++ segsJoin '/' l =
      String.mk ('/' :: joinChars '/' (l.map String.data)) := rfl

/-- The parent directory of a resolved POSIX path: the root when at most
one segment remains, otherwise the resolved path without its final
segment. -/
theorem dirname_resolvePosix (cwd p : String) :
    dirnamePosix (resolvePosix cwd p) =
      if (resolveSegsP cwd p).length ≤ 1 then "/"
      else "/" ++ segsJoin '/' (resolveSegsP cwd p).dropLast := by
  cases hsegs : resolveSegsP cwd p with
  | nil =>
    rw [if_pos (by simp)]
    unfold resolvePosix
    rw [hsegs]
    rw [if_pos (show ([] : List String).isEmpty = true from rfl)]
    exact dirnameCore_sep_only '/' true
  | cons s rest =>
    cases rest with
    | nil =>
      rw [if_pos (by simp)]
      have h1 : resolvePosix cwd p = String.mk ('/' :: s.data) := by
        unfold resolvePosix
        rw [hsegs, if_neg (by simp)]
        rfl
      rw [h1]
      have hg := resolveSegsP_good cwd p s (hsegs ▸ List.mem_cons_self s [])
      exact dirnameCore_single '/' true s hg.1 hg.2.2.2
    | cons s2 rest2 =>
      rw [if_neg (by simp)]
      have hne : (s :: s2 :: rest2 : List String) ≠ [] := by simp
      have hsplit : (s :: s2 :: rest2).dropLast ++
          [(s :: s2 :: rest2).getLast hne] = s :: s2 :: rest2 :=
        List.dropLast_append_getLast hne
      have hgood : ∀ x ∈ (s :: s2 :: rest2 : List String), GoodSeg '/' x := by
        intro x hx
        exact resolveSegsP_good cwd p x (hsegs ▸ hx)
      have h1 : resolvePosix cwd p = String.mk
          ('/' :: joinChars '/' ((s :: s2 :: rest2).map String.data)) := by
        unfold resolvePosix
        rw [hsegs, if_neg (by simp)]
        rfl
      rw [h1]
      have hlast := hgood ((s :: s2 :: rest2).getLast hne) (List.getLast_mem hne)
      have hmulti := dirnameCore_multi '/' true (s :: s2 :: rest2).dropLast
        ((s :: s2 :: rest2).getLast hne)
        (by simp)
        (by
          intro x hx
          have := hgood x (List.dropLast_subset _ hx)
          exact ⟨this.1, this.2.2.2⟩)
        hlast.1 hlast.2.2.2
      rw [hsplit] at hmulti
      unfold dirnamePosix
      rw [hmulti, slash_join_mk]

/-! ## Windows drive-absolute lemmas (for the zero-agreement fallback) -/

/-- Inversion of `isDriveAbs`. -/
theorem isDriveAbs_elim (p : String) (h : isDriveAbs p = true) :
    ∃ c t, p.data = c :: ':' :: '\\' :: t ∧ c.isAlpha = true := by
  unfold isDriveAbs at h
  cases hd : p.data with
  | nil => rw [hd] at h; simp at h
  | cons c rest =>
    cases rest with
    | nil => rw [hd] at h; simp at h
    | cons c1 rest1 =>
      cases rest1 with
      | nil => rw [hd] at h; simp at h
      | cons c2 rest2 =>
        rw [hd] at h
        simp only [decide_eq_true_eq] at h
        exact ⟨c, rest2, by rw [h.2.1, h.2.2], h.1⟩

/-- Resolving a drive-absolute path keeps it drive-absolute. -/
theorem isDriveAbs_resolveWin (cwd p : String) (h : isDriveAbs p = true) :
    isDriveAbs (resolveWin cwd p) = true := by
  obtain ⟨c, t, hdata, halpha⟩ := isDriveAbs_elim p h
  have hcomb : winCombined cwd p = p := by
    unfold winCombined
    rw [if_pos h]
  have hdev : (winDevice cwd p).data = [c, ':'] := by
    unfold winDevice
    rw [hcomb, hdata]
    rfl
  unfold resolveWin
  by_cases hseg : (winSegsOf cwd p).isEmpty = true
  · rw [if_pos hseg]
    unfold isDriveAbs
    rw [show (winDevice cwd p ++ "\\").data =
      (winDevice cwd p).data ++ ['\\'] from rfl, hdev]
    simp [halpha]
  · rw [if_neg hseg]
    unfold isDriveAbs
    rw [show (winDevice cwd p ++ "\\" ++ segsJoin '\\' (winSegsOf cwd p)).data =
      ((winDevice cwd p).data ++ ['\\']) ++
        (segsJoin '\\' (winSegsOf cwd p)).data from rfl, hdev]
    simp [halpha]

/-- The dirname of a rooted path stays rooted. -/
theorem dirnameCore_rooted_head (sep : Char) (special : Bool) (t : List Char) :
    ∃ u, (dirnameCore sep special (String.mk (sep :: t))).data = sep :: u := by
  rw [dirnameCore_cons]
  cases hac : ((sep :: t).reverse.dropWhile (fun c => c = sep)).dropWhile
      (fun c => c ≠ sep) with
  | nil =>
    dsimp only
    rw [if_pos rfl]
    exact ⟨[], rfl⟩
  | cons a kept =>
    dsimp only
    by_cases hk : kept = []
    · rw [if_pos hk, if_pos rfl]
      exact ⟨[], rfl⟩
    · rw [if_neg hk]
      by_cases hsp : special = true ∧ sep = sep ∧ kept = [sep]
      · rw [if_pos hsp]
        exact ⟨[sep], rfl⟩
      · rw [if_neg hsp]
        have h1 : ((sep :: t).reverse.dropWhile (fun c => c = sep)).dropWhile
            (fun c => c ≠ sep) <:+ (sep :: t).reverse :=
          (List.dropWhile_suffix _).trans (List.dropWhile_suffix _)
        rw [hac] at h1
        have h2 : kept <:+ (sep :: t).reverse := by
          obtain ⟨pre, hpre⟩ := h1
          exact ⟨pre ++ [a], by simpa using hpre⟩
        have h3 : kept.reverse <+: (sep :: t) := by
          have h4 := Iff.mpr List.reverse_prefix h2
          rwa [List.reverse_reverse] at h4
        obtain ⟨y, u, hyu⟩ : ∃ y u, kept.reverse = y :: u := by
          cases hkr : kept.reverse with
          | nil => exact absurd (by simpa using congrArg List.reverse hkr) hk
          | cons y u => exact ⟨y, u, rfl⟩
        rw [hyu] at h3
        obtain ⟨rest3, hrest3⟩ := h3
        have hy : y = sep := by
          have := congrArg (fun l => List.head? l) hrest3
          simpa using this
        exact ⟨u, by rw [show (String.mk kept.reverse).data = kept.reverse from rfl,
          hyu, hy]⟩

/-- The dirname of a resolved drive-absolute path is drive-absolute. -/
theorem isDriveAbs_dirnameWin (q : String) (h : isDriveAbs q = true) :
    isDriveAbs (dirnameWin q) = true := by
  obtain ⟨c, t, hdata, halpha⟩ := isDriveAbs_elim q h
  unfold dirnameWin
  rw [if_pos h]
  have hdrop : String.mk (q.data.drop 2) = String.mk ('\\' :: t) := by
    rw [hdata]
    rfl
  have htake : q.data.take 2 = [c, ':'] := by
    rw [hdata]
    rfl
  rw [hdrop, htake]
  obtain ⟨u, hu⟩ := dirnameCore_rooted_head '\\' false t
  unfold isDriveAbs
  rw [show (String.mk [c, ':'] ++ dirnameBack (String.mk ('\\' :: t))).data =
    [c, ':'] ++ (dirnameBack (String.mk ('\\' :: t))).data from rfl]
  rw [show (dirnameBack (String.mk ('\\' :: t))).data =
    (dirnameCore '\\' false (String.mk ('\\' :: t))).data from rfl, hu]
  simp [halpha]

/-- The parse root of a drive-absolute path is its non-empty drive
root. -/
theorem parseRootWin_driveAbs (q : String) (h : isDriveAbs q = true) :
    ∃ c, (parseRootWin q).data = [c, ':', '\\'] := by
  obtain ⟨c, t, hdata, _⟩ := isDriveAbs_elim q h
  unfold parseRootWin
  rw [if_pos h]
  refine ⟨c, ?_⟩
  rw [show (String.mk (q.data.take 3)).data = q.data.take 3 from rfl, hdata]
  rfl

/-- C3: for every platform, the empty input set falls back to the
process working directory; and on Windows, when zero path segments agree
across the parent directories (as with files on different drives), the
function returns the filesystem root of the first file's parent
directory. -/
theorem claimC3_fallbacks :
    (∀ P : PathPlatform, computeCommonRootDirectory P [] = P.cwd) ∧
    (∀ (cwdW first : String) (rest : List String),
      isDriveAbs first = true →
      commonPartsOf (splitPathsOf (win32Platform cwdW) (first :: rest)) = [] →
      computeCommonRootDirectory (win32Platform cwdW) (first :: rest) =
        parseRootWin (dirnameWin (resolveWin cwdW first))) := by
  constructor
  · intro P
    rfl
  · intro cwdW first rest h hcp
    have hda : isDriveAbs (dirnameWin (resolveWin cwdW first)) = true :=
      isDriveAbs_dirnameWin _ (isDriveAbs_resolveWin cwdW first h)
    obtain ⟨c, hroot⟩ := parseRootWin_driveAbs _ hda
    have hcommon : commonOf (win32Platform cwdW) (first :: rest) first =
        parseRootWin (dirnameWin (resolveWin cwdW first)) := by
      unfold commonOf
      rw [if_neg (by rw [hcp]; simp)]
      rw [if_pos (by
        show (PathPlatform.parseRoot _ _).data ≠ []
        show (parseRootWin (dirnameWin (resolveWin cwdW first))).data ≠ []
        rw [hroot]
        simp)]
      rfl
    show (if (commonOf (win32Platform cwdW) (first :: rest) first).data = []
      then (win32Platform cwdW).cwd
      else commonOf (win32Platform cwdW) (first :: rest) first) = _
    rw [hcommon, if_neg (by rw [hroot]; simp)]

/-- Witness for C3: two files on different drives agree on zero
segments, and the result is the drive root of the first file's parent;
the empty set yields the working directory. -/
theorem claimC3_witness :
    isDriveAbs "C:\\a\\f.txt" = true ∧
    commonPartsOf (splitPathsOf (win32Platform "C:\\work")
      ["C:\\a\\f.txt", "D:\\b\\g.txt"]) = [] ∧
    computeCommonRootDirectory (win32Platform "C:\\work")
      ["C:\\a\\f.txt", "D:\\b\\g.txt"] =
      parseRootWin (dirnameWin (resolveWin "C:\\work" "C:\\a\\f.txt")) ∧
    parseRootWin (dirnameWin (resolveWin "C:\\work" "C:\\a\\f.txt")) = "C:\\" ∧
    computeCommonRootDirectory (posixPlatform "/w") [] = "/w" := by
  refine ⟨by decide, by decide, ?_, by decide, ?_⟩
  · exact claimC3_fallbacks.2 "C:\\work" "C:\\a\\f.txt" ["D:\\b\\g.txt"]
      (by decide) (by decide)
  · exact claimC3_fallbacks.1 (posixPlatform "/w")

/-! ## Deduplication lemmas -/

/-- The fold underlying `jsSetDedup` keeps the accumulator
duplicate-free and accumulates exactly the members. -/
theorem jsSetDedup_fold (l : List String) :
    ∀ acc : List String, acc.Nodup →
      (List.foldl (fun acc x => if x ∈ acc then acc else acc ++ [x]) acc l).Nodup ∧
      (∀ y, y ∈ List.foldl (fun acc x => if x ∈ acc then acc else acc ++ [x]) acc l ↔
        y ∈ acc ∨ y ∈ l) := by
  induction l with
  | nil =>
    intro acc hacc
    exact ⟨hacc, fun y => by simp⟩
  | cons x xs ih =>
    intro acc hacc
    by_cases hx : x ∈ acc
    · have hstep : (if x ∈ acc then acc else acc ++ [x]) = acc := if_pos hx
      rw [List.foldl_cons, hstep]
      obtain ⟨h1, h2⟩ := ih acc hacc
      refine ⟨h1, fun y => ?_⟩
      rw [h2 y]
      constructor
      · rintro (hy | hy)
        · exact Or.inl hy
        · exact Or.inr (List.mem_cons_of_mem x hy)
      · rintro (hy | hy)
        · exact Or.inl hy
        · rcases List.mem_cons.mp hy with hy1 | hy2
          · exact Or.inl (hy1 ▸ hx)
          · exact Or.inr hy2
    · have hstep : (if x ∈ acc then acc else acc ++ [x]) = acc ++ [x] := if_neg hx
      rw [List.foldl_cons, hstep]
      have hacc2 : (acc ++ [x]).Nodup := by
        simp [List.nodup_append, hacc, hx]
      obtain ⟨h1, h2⟩ := ih (acc ++ [x]) hacc2
      refine ⟨h1, fun y => ?_⟩
      rw [h2 y]
      constructor
      · rintro (hy | hy)
        · rcases List.mem_append.mp hy with hy1 | hy2
          · exact Or.inl hy1
          · rw [List.mem_singleton] at hy2
            exact Or.inr (hy2 ▸ List.mem_cons_self x xs)
        · exact Or.inr (List.mem_cons_of_mem x hy)
      · rintro (hy | hy)
        · exact Or.inl (List.mem_append.mpr (Or.inl hy))
        · rcases List.mem_cons.mp hy with hy1 | hy2
          · exact Or.inl (List.mem_append.mpr (Or.inr (by simp [hy1])))
          · exact Or.inr hy2

/-- `jsSetDedup` produces a duplicate-free list. -/
theorem jsSetDedup_nodup (l : List String) : (jsSetDedup l).Nodup :=
  (jsSetDedup_fold l [] List.nodup_nil).1

/-- `jsSetDedup` preserves membership. -/
theorem mem_jsSetDedup (l : List String) (y : String) :
    y ∈ jsSetDedup l ↔ y ∈ l := by
  have h := (jsSetDedup_fold l [] List.nodup_nil).2 y
  unfold jsSetDedup
  rw [h]
  simp

/-! ## The normal form of `normalizePosix` on absolute paths -/

/-- Splitting with a trailing separator appends a trailing empty
group. -/
theorem splitChars_append_sep_end (sep : Char) (cs : List Char) :
    splitChars sep (cs ++ [sep]) = splitChars sep cs ++ [[]] := by
  induction cs with
  | nil =>
    rw [List.nil_append, splitChars_cons]
    simp [splitChars]
  | cons c cs ih =>
    show splitChars sep (c :: (cs ++ [sep])) = _
    rw [splitChars_cons, ih, splitChars_cons]
    cases h : splitChars sep cs with
    | nil => exact absurd h (splitChars_ne_nil sep cs)
    | cons g rest =>
      by_cases hc : c = sep <;> simp [hc]

/-- Characterisation of `normalizePosix` on an absolute path: either
all segments vanish and the result is the bare root, or the result is
the root followed by the good normalised segments, with the original
trailing separator preserved. -/
theorem normalizePosix_abs (p : String) (h : isAbsolutePosix p = true) :
    (normSegsOf p = [] ∧ normalizePosix p = "/") ∨
    (normSegsOf p ≠ [] ∧ (∀ s ∈ normSegsOf p, GoodSeg '/' s) ∧
      ((p.data.getLast? = some '/' ∧
        normalizePosix p = "/" ++ (normCore p ++ "/")) ∨
       (p.data.getLast? ≠ some '/' ∧ normalizePosix p = "/" ++ normCore p))) := by
  have hdne : p.data ≠ [] := by
    intro hd
    unfold isAbsolutePosix at h
    rw [hd] at h
    simp at h
  have hsegs_good : ∀ s ∈ normSegsOf p, GoodSeg '/' s := by
    unfold normSegsOf
    rw [show (¬ isAbsolutePosix p = true : Bool) = false by simp [h]]
    refine normSegs_good '/' _ ?_ [] (by intro s hs; exact absurd hs (List.not_mem_nil s))
    intro s hs
    unfold splitSegs at hs
    obtain ⟨g, hg, rfl⟩ := List.mem_map.mp hs
    exact mem_splitChars_sep_free '/' _ g hg
  by_cases hcore : (normCore p).data = []
  · left
    have hnil : normSegsOf p = [] := by
      cases hn : normSegsOf p with
      | nil => rfl
      | cons s rest =>
        exfalso
        have hs := hsegs_good s (hn ▸ List.mem_cons_self s rest)
        have hsd : s.data ≠ [] := by
          intro hd2
          apply hs.1
          cases s with
          | mk d => simp at hd2; rw [hd2]
        apply joinChars_ne_nil '/' s.data (rest.map String.data) hsd
        have hjc : (normCore p).data = joinChars '/' ((s :: rest).map String.data) := by
          unfold normCore
          rw [hn]
          rfl
        rw [show (s :: rest).map String.data = s.data :: rest.map String.data from rfl]
          at hjc
        rw [← hjc]
        exact hcore
    refine ⟨hnil, ?_⟩
    unfold normalizePosix
    rw [if_neg hdne, if_pos hcore, if_pos h]
  · right
    have hne : normSegsOf p ≠ [] := by
      intro hn
      apply hcore
      unfold normCore
      rw [hn]
      rfl
    refine ⟨hne, hsegs_good, ?_⟩
    by_cases ht : p.data.getLast? = some '/'
    · left
      refine ⟨ht, ?_⟩
      unfold normalizePosix
      rw [if_neg hdne, if_neg hcore, if_pos h, if_pos ht]
    · right
      refine ⟨ht, ?_⟩
      unfold normalizePosix
      rw [if_neg hdne, if_neg hcore, if_pos h, if_neg ht]

/-- Inversion of `isAbsolutePosix`. -/
theorem isAbsolutePosix_elim (p : String) (h : isAbsolutePosix p = true) :
    ∃ t, p.data = '/' :: t := by
  unfold isAbsolutePosix at h
  cases hd : p.data with
  | nil => rw [hd] at h; simp at h
  | cons c t =>
    rw [hd] at h
    simp at h
    exact ⟨t, by rw [h]⟩

/-- A root-prefixed string is absolute. -/
theorem isAbs_slash_append (X : String) : isAbsolutePosix ("/" ++ X) = true := rfl

/-- Splitting the normalised absolute path recovers the root and its
segments. -/
theorem splitSegs_norm_abs (segs : List String) (hne : segs ≠ [])
    (hgood : ∀ s ∈ segs, GoodSeg '/' s) :
    splitSegs '/' ("/" ++ segsJoin '/' segs) = "" :: segs ∧
    splitSegs '/' ("/" ++ (segsJoin '/' segs ++ "/")) = ("" :: segs) ++ [""] := by
  have hfree : ∀ g ∈ segs.map String.data, '/' ∉ g := by
    intro g hg
    obtain ⟨s, hs, rfl⟩ := List.mem_map.mp hg
    exact (hgood s hs).2.2.2
  have hmapne : segs.map String.data ≠ [] := by simpa using hne
  constructor
  · show ((splitChars '/' ('/' :: joinChars '/' (segs.map String.data))).map
      (fun cs => String.mk cs)) = "" :: segs
    rw [splitChars_sep_cons, splitChars_join '/' _ hmapne hfree]
    show ("" : String) :: (segs.map String.data).map String.mk = _
    rw [map_mk_data]
  · show ((splitChars '/' ('/' :: (joinChars '/' (segs.map String.data) ++ ['/']))).map
      (fun cs => String.mk cs)) = ("" :: segs) ++ [""]
    rw [splitChars_sep_cons, splitChars_append_sep_end,
      splitChars_join '/' _ hmapne hfree]
    rw [show (([] :: (segs.map String.data ++ [[]])).map (fun cs => String.mk cs)) =
      ("" : String) :: ((segs.map String.data).map String.mk ++ [""]) from by
        rw [List.map_cons, List.map_append]
        rfl]
    rw [map_mk_data]
    rfl

/-- The normalised form of an absolute path is absolute. -/
theorem normalizePosix_abs_isAbs (p : String) (h : isAbsolutePosix p = true) :
    isAbsolutePosix (normalizePosix p) = true := by
  rcases normalizePosix_abs p h with ⟨_, heq⟩ | ⟨_, _, ⟨_, heq⟩ | ⟨_, heq⟩⟩ <;>
    rw [heq]
  · rfl
  · exact isAbs_slash_append _
  · exact isAbs_slash_append _

/-- The normalised form of an absolute path has no dot segments. -/
theorem normalizePosix_abs_clean (p : String) (h : isAbsolutePosix p = true) :
    cleanSegs (normalizePosix p) = true := by
  rcases normalizePosix_abs p h with ⟨_, heq⟩ | ⟨hne, hgood, ⟨_, heq⟩ | ⟨_, heq⟩⟩ <;>
    rw [heq]
  · decide
  · unfold cleanSegs
    rw [show ("/" : String) ++ (normCore p ++ "/") =
      "/" ++ (segsJoin '/' (normSegsOf p) ++ "/") from rfl]
    rw [(splitSegs_norm_abs (normSegsOf p) hne hgood).2]
    rw [List.all_eq_true]
    intro s hs
    rcases List.mem_append.mp hs with hs1 | hs2
    · rcases List.mem_cons.mp hs1 with hs3 | hs4
      · subst hs3; decide
      · have := hgood s hs4
        simp [this.2.1, this.2.2.1]
    · rw [List.mem_singleton] at hs2
      subst hs2; decide
  · unfold cleanSegs
    rw [show ("/" : String) ++ normCore p =
      "/" ++ segsJoin '/' (normSegsOf p) from rfl]
    rw [(splitSegs_norm_abs (normSegsOf p) hne hgood).1]
    rw [List.all_eq_true]
    intro s hs
    rcases List.mem_cons.mp hs with hs3 | hs4
    · subst hs3; decide
    · have := hgood s hs4
      simp [this.2.1, this.2.2.1]

/-- The segments of the normalised absolute path are the normalised
segments themselves. -/
theorem normSegsOf_norm_abs (segs : List String) (hne : segs ≠ [])
    (hgood : ∀ s ∈ segs, GoodSeg '/' s) :
    normSegsOf ("/" ++ segsJoin '/' segs) = segs ∧
    normSegsOf ("/" ++ (segsJoin '/' segs ++ "/")) = segs := by
  have hplain : ∀ s ∈ segs, s ≠ "." ∧ s ≠ ".." :=
    fun s hs => ⟨(hgood s hs).2.1, (hgood s hs).2.2.1⟩
  have hfilter : segs.filter (fun s => s ≠ "") = segs := by
    rw [List.filter_eq_self]
    intro s hs
    simp [(hgood s hs).1]
  constructor
  · unfold normSegsOf
    rw [show (¬ isAbsolutePosix ("/" ++ segsJoin '/' segs) = true : Bool) = false by
      simp [isAbs_slash_append]]
    rw [(splitSegs_norm_abs segs hne hgood).1]
    rw [normSegs_all_plain false _ (by
      intro s hs
      rcases List.mem_cons.mp hs with h1 | h2
      · subst h1; exact ⟨by decide, by decide⟩
      · exact hplain s h2) []]
    rw [List.nil_append, List.filter_cons_of_neg (by decide)]
    exact hfilter
  · unfold normSegsOf
    rw [show (¬ isAbsolutePosix ("/" ++ (segsJoin '/' segs ++ "/")) = true : Bool) = false by
      simp [isAbs_slash_append]]
    rw [(splitSegs_norm_abs segs hne hgood).2]
    rw [normSegs_all_plain false _ (by
      intro s hs
      rcases List.mem_append.mp hs with h1 | h2
      · rcases List.mem_cons.mp h1 with h3 | h4
        · subst h3; exact ⟨by decide, by decide⟩
        · exact hplain s h4
      · rw [List.mem_singleton] at h2
        subst h2
        exact ⟨by decide, by decide⟩) []]
    rw [List.nil_append,
      show (("" :: segs) ++ [""] : List String) = "" :: (segs ++ [""]) from rfl,
      List.filter_cons_of_neg (by decide), List.filter_append, hfilter]
    simp

/-- A non-empty string has non-empty character data. -/
theorem data_ne_nil_of_ne_empty (s : String) (h : s ≠ "") : s.data ≠ [] := by
  intro hd
  apply h
  cases s with
  | mk d =>
    simp at hd
    rw [hd]

/-- The last element of an appended list with non-empty right part. -/
theorem getLast?_append_right {α : Type} (l₁ l₂ : List α) (h : l₂ ≠ []) :
    (l₁ ++ l₂).getLast? = l₂.getLast? :=
  List.getLast?_append_of_ne_nil l₁ h

/-- The last element, when present, is a member. -/
theorem getLast?_mem_own {α : Type} (l : List α) (a : α) (h : l.getLast? = some a) :
    a ∈ l := by
  induction l with
  | nil => simp at h
  | cons x xs ih =>
    cases hx : xs with
    | nil =>
      subst hx
      rw [show ([x] : List α).getLast? = some x from rfl] at h
      injection h with h
      simp [h]
    | cons y ys =>
      subst hx
      rw [List.getLast?_cons_cons] at h
      exact List.mem_cons_of_mem x (ih h)

/-- A root-prefixed join of good segments never ends in a separator. -/
theorem getLast?_good_join (segs : List String) (hne : segs ≠ [])
    (hgood : ∀ s ∈ segs, GoodSeg '/' s) :
    ('/' :: joinChars '/' (segs.map String.data)).getLast? ≠ some '/' := by
  obtain ⟨lastS, hsplit, hlastmem⟩ : ∃ l, segs.dropLast ++ [l] = segs ∧ l ∈ segs :=
    ⟨segs.getLast hne, List.dropLast_append_getLast hne, List.getLast_mem hne⟩
  have hlast := hgood lastS hlastmem
  have hlastne : lastS.data ≠ [] := data_ne_nil_of_ne_empty lastS hlast.1
  rw [← hsplit, List.map_append]
  cases hdl : segs.dropLast with
  | nil =>
    rw [List.map_nil, List.nil_append]
    rw [show List.map String.data [lastS] = [lastS.data] from rfl]
    rw [show joinChars '/' [lastS.data] = lastS.data from rfl]
    rw [show ('/' :: lastS.data) = ['/'] ++ lastS.data from rfl,
      getLast?_append_right ['/'] lastS.data hlastne]
    intro hc
    exact hlast.2.2.2 (getLast?_mem_own lastS.data '/' hc)
  | cons d ds =>
    rw [show List.map String.data [lastS] = [lastS.data] from rfl]
    rw [joinChars_append_last '/' (List.map String.data (d :: ds)) lastS.data (by simp)]
    rw [show ('/' :: (joinChars '/' (List.map String.data (d :: ds)) ++
        '/' :: lastS.data)) =
      (('/' :: joinChars '/' (List.map String.data (d :: ds))) ++ ['/']) ++
        lastS.data from by simp]
    rw [getLast?_append_right _ lastS.data hlastne]
    intro hc
    exact hlast.2.2.2 (getLast?_mem_own lastS.data '/' hc)

/-- Normalising an absolute path is idempotent. -/
theorem normalizePosix_abs_idem (p : String) (h : isAbsolutePosix p = true) :
    normalizePosix (normalizePosix p) = normalizePosix p := by
  rcases normalizePosix_abs p h with ⟨hnil, heq⟩ | ⟨hne, hgood, hcase⟩
  · rw [heq]
    rfl
  · have hzc : normCore p = segsJoin '/' (normSegsOf p) := rfl
    rcases hcase with ⟨ht, heq⟩ | ⟨ht, heq⟩
    · rw [heq]
      have hq : isAbsolutePosix ("/" ++ (normCore p ++ "/")) = true :=
        isAbs_slash_append _
      have hns : normSegsOf ("/" ++ (normCore p ++ "/")) = normSegsOf p := by
        rw [hzc]
        exact (normSegsOf_norm_abs (normSegsOf p) hne hgood).2
      rcases normalizePosix_abs _ hq with ⟨hnil2, _⟩ | ⟨_, _, ⟨_, heq2⟩ | ⟨ht2, _⟩⟩
      · rw [hns] at hnil2
        exact absurd hnil2 hne
      · rw [heq2]
        have hcq : normCore ("/" ++ (normCore p ++ "/")) = normCore p := by
          rw [show normCore ("/" ++ (normCore p ++ "/")) =
            segsJoin '/' (normSegsOf ("/" ++ (normCore p ++ "/"))) from rfl, hns, ← hzc]
        rw [hcq]
      · exfalso
        apply ht2
        rw [show ("/" ++ (normCore p ++ "/")).data =
          ('/' :: (normCore p).data) ++ ['/'] from rfl]
        rw [getLast?_append_right _ ['/'] (by simp)]
        rfl
    · rw [heq]
      have hq : isAbsolutePosix ("/" ++ normCore p) = true := isAbs_slash_append _
      have hns : normSegsOf ("/" ++ normCore p) = normSegsOf p := by
        rw [hzc]
        exact (normSegsOf_norm_abs (normSegsOf p) hne hgood).1
      have hgl : (("/" ++ normCore p).data).getLast? ≠ some '/' := by
        rw [show ("/" ++ normCore p).data =
          '/' :: joinChars '/' ((normSegsOf p).map String.data) from rfl]
        exact getLast?_good_join (normSegsOf p) hne hgood
      rcases normalizePosix_abs _ hq with ⟨hnil2, _⟩ | ⟨_, _, ⟨ht2, _⟩ | ⟨_, heq2⟩⟩
      · rw [hns] at hnil2
        exact absurd hnil2 hne
      · exact absurd ht2 hgl
      · rw [heq2]
        have hcq : normCore ("/" ++ normCore p) = normCore p := by
          rw [show normCore ("/" ++ normCore p) =
            segsJoin '/' (normSegsOf ("/" ++ normCore p)) from rfl, hns, ← hzc]
        rw [hcq]

/-! ## Absoluteness propagation through the resolver -/

/-- Joining onto an absolute base yields an absolute path. -/
theorem pathJoin_abs (a b : String) (h : isAbsolutePosix a = true) :
    isAbsolutePosix (pathJoin a b) = true := by
  obtain ⟨t, ht⟩ := isAbsolutePosix_elim a h
  have hane : a ≠ "" := by
    intro he
    rw [he] at ht
    simp at ht
  unfold pathJoin
  by_cases hb : b = ""
  · subst hb
    rw [show (([a, ""].filter (fun s => s ≠ ""))) = [a] from by simp [hane]]
    rw [if_neg (by simp)]
    refine normalizePosix_abs_isAbs _ ?_
    rw [show segsJoin '/' [a] = a from rfl]
    exact h
  · rw [show (([a, b].filter (fun s => s ≠ ""))) = [a, b] from by simp [hane, hb]]
    rw [if_neg (by simp)]
    refine normalizePosix_abs_isAbs _ ?_
    unfold isAbsolutePosix
    rw [show (segsJoin '/' [a, b]).data = a.data ++ '/' :: b.data from rfl, ht]
    simp

/-- Anchoring against an absolute workspace yields an absolute path. -/
theorem anchorPath_abs (workspace input : String)
    (h : isAbsolutePosix workspace = true) :
    isAbsolutePosix (anchorPath workspace input) = true := by
  unfold anchorPath
  by_cases hi : isAbsolutePosix input = true
  · rw [if_pos hi]
    exact hi
  · rw [if_neg hi]
    exact pathJoin_abs workspace input h

/-- Unfolding equation of `collectLoop` in the running case. -/
theorem collectLoop_succ_cons (w : World) (fuel : Nat) (current : String)
    (stackRest files : List String) :
    collectLoop w (fuel + 1) (current :: stackRest) files =
      match w.readdir current with
      | .error e => some (.error e)
      | .ok entries =>
        collectLoop w fuel
          ((((entries.filter (fun e => e.isDirectory)).map
            (fun e => pathJoin current e.name)).reverse) ++ stackRest)
          (files ++ (entries.filter (fun e => ¬ e.isDirectory ∧ e.isFile)).map
            (fun e => pathJoin current e.name)) := rfl

/-- Every file collected by the walk is absolute, given an absolute
stack. -/
theorem collectLoop_abs (w : World) :
    ∀ (fuel : Nat) (stack files out : List String),
      (∀ s ∈ stack, isAbsolutePosix s = true) →
      (∀ f ∈ files, isAbsolutePosix f = true) →
      collectLoop w fuel stack files = some (.ok out) →
      ∀ f ∈ out, isAbsolutePosix f = true := by
  intro fuel
  induction fuel with
  | zero =>
    intro stack files out hstack hfiles hrun
    cases stack with
    | nil =>
      have hout : files = out := by
        have : some (Except.ok files : Except String (List String)) = some (.ok out) := hrun
        injection this with h1
        injection h1
      exact hout ▸ hfiles
    | cons current rest =>
      exact absurd hrun (by simp [collectLoop])
  | succ fuel ih =>
    intro stack files out hstack hfiles hrun
    cases stack with
    | nil =>
      have hout : files = out := by
        have : some (Except.ok files : Except String (List String)) = some (.ok out) := hrun
        injection this with h1
        injection h1
      exact hout ▸ hfiles
    | cons current rest =>
      rw [collectLoop_succ_cons] at hrun
      cases hrd : w.readdir current with
      | error e =>
        rw [hrd] at hrun
        simp at hrun
      | ok entries =>
        rw [hrd] at hrun
        refine ih _ _ out ?_ ?_ hrun
        · intro s hs
          rcases List.mem_append.mp hs with h1 | h2
          · rw [List.mem_reverse] at h1
            obtain ⟨e, _, rfl⟩ := List.mem_map.mp h1
            exact pathJoin_abs current e.name
              (hstack current (List.mem_cons_self current rest))
          · exact hstack s (List.mem_cons_of_mem current h2)
        · intro f hf
          rcases List.mem_append.mp hf with h1 | h2
          · exact hfiles f h1
          · obtain ⟨e, _, rfl⟩ := List.mem_map.mp h2
            exact pathJoin_abs current e.name
              (hstack current (List.mem_cons_self current rest))

/-- Every file collected from an absolute directory is absolute. -/
theorem collectFiles_abs (w : World) (fuel : Nat) (d : String) (out : List String)
    (hd : isAbsolutePosix d = true)
    (hrun : collectFilesFromDirectory w fuel d = some (.ok out)) :
    ∀ f ∈ out, isAbsolutePosix f = true := by
  refine collectLoop_abs w fuel [d] [] out ?_ ?_ hrun
  · intro s hs
    rw [List.mem_singleton] at hs
    exact hs ▸ hd
  · intro f hf
    exact absurd hf (List.not_mem_nil f)

/-- Every file accumulated over absolute matched directories is
absolute. -/
theorem walkDirsAccum_abs (w : World) (fuel : Nat) :
    ∀ (dirs acc out : List String),
      (∀ d ∈ dirs, isAbsolutePosix d = true) →
      (∀ f ∈ acc, isAbsolutePosix f = true) →
      walkDirsAccum w fuel dirs acc = some (.ok out) →
      ∀ f ∈ out, isAbsolutePosix f = true := by
  intro dirs
  induction dirs with
  | nil =>
    intro acc out _ hacc hrun
    have hout : acc = out := by
      have : some (Except.ok acc :
        Except String (List String)) = some (.ok out) := hrun
      injection this with h1
      injection h1
    exact hout ▸ hacc
  | cons d ds ih =>
    intro acc out hdirs hacc hrun
    rw [show walkDirsAccum w fuel (d :: ds) acc =
      (match collectFilesFromDirectory w fuel d with
      | none => none
      | some (Except.error e) => some (Except.error e)
      | some (Except.ok dirFiles) =>
        walkDirsAccum w fuel ds (acc ++ dirFiles)) from rfl] at hrun
    cases hc : collectFilesFromDirectory w fuel d with
    | none =>
      rw [hc] at hrun
      simp at hrun
    | some r =>
      cases r with
      | error e =>
        rw [hc] at hrun
        simp at hrun
      | ok dirFiles =>
        rw [hc] at hrun
        refine ih (acc ++ dirFiles) out
          (fun x hx => hdirs x (List.mem_cons_of_mem d hx)) ?_ hrun
        intro f hf
        rcases List.mem_append.mp hf with h1 | h2
        · exact hacc f h1
        · exact collectFiles_abs w fuel d dirFiles
            (hdirs d (List.mem_cons_self d ds)) hc f h2

/-- Every file contributed by one pattern is absolute. -/
theorem resolveOne_abs (w : World) (fuel : Nat) (workspace input : String)
    (fs warns : List String)
    (hws : isAbsolutePosix workspace = true)
    (hgf : ∀ p x, x ∈ w.globFiles p → isAbsolutePosix x = true)
    (hgd : ∀ p x, x ∈ w.globDirs p → isAbsolutePosix x = true)
    (h : resolveOne w fuel workspace input = some (.ok (fs, warns))) :
    ∀ f ∈ fs, isAbsolutePosix f = true := by
  unfold resolveOne at h
  by_cases hg : hasGlobChars (anchorPath workspace input) = true
  · rw [if_pos hg] at h
    cases hwd : walkDirsAccum w fuel (w.globDirs (anchorPath workspace input)) [] with
    | none =>
      rw [hwd] at h
      simp at h
    | some r =>
      cases r with
      | error e =>
        rw [hwd] at h
        simp at h
      | ok dirFiles =>
        rw [hwd] at h
        have hfs : dirFiles ++ w.globFiles (anchorPath workspace input) = fs := by
          injection h with h1
          injection h1 with h2
          exact congrArg Prod.fst h2
        intro f hf
        rw [← hfs] at hf
        rcases List.mem_append.mp hf with h1 | h2
        · exact walkDirsAccum_abs w fuel _ [] dirFiles
            (fun d hd => hgd _ d hd) (fun x hx => absurd hx (List.not_mem_nil x))
            hwd f h1
        · exact hgf _ f h2
  · rw [if_neg hg] at h
    by_cases he : pathExists w (anchorPath workspace input) = true
    · rw [if_neg (by simp [he])] at h
      cases hs : statSafe w (anchorPath workspace input) with
      | none =>
        rw [hs] at h
        have hfs : ([] : List String) = fs := by
          injection h with h1
          injection h1 with h2
          exact congrArg Prod.fst h2
        intro f hf
        rw [← hfs] at hf
        exact absurd hf (List.not_mem_nil f)
      | some st =>
        rw [hs] at h
        dsimp only at h
        by_cases hd : st.isDirectory = true
        · rw [if_pos hd] at h
          cases hc : collectFilesFromDirectory w fuel (anchorPath workspace input) with
          | none =>
            rw [hc] at h
            simp at h
          | some r =>
            cases r with
            | error e =>
              rw [hc] at h
              simp at h
            | ok dirFiles =>
              rw [hc] at h
              dsimp only at h
              by_cases hne2 : dirFiles.isEmpty = true
              · rw [if_pos hne2] at h
                have hfs : ([] : List String) = fs := by
                  injection h with h1
                  injection h1 with h2
                  exact congrArg Prod.fst h2
                intro f hf
                rw [← hfs] at hf
                exact absurd hf (List.not_mem_nil f)
              · rw [if_neg hne2] at h
                have hfs : dirFiles = fs := by
                  injection h with h1
                  injection h1 with h2
                  exact congrArg Prod.fst h2
                intro f hf
                rw [← hfs] at hf
                exact collectFiles_abs w fuel _ dirFiles
                  (anchorPath_abs workspace input hws) hc f hf
        · rw [if_neg hd] at h
          by_cases hfile : st.isFile = true
          · rw [if_pos hfile] at h
            have hfs : [anchorPath workspace input] = fs := by
              injection h with h1
              injection h1 with h2
              exact congrArg Prod.fst h2
            intro f hf
            rw [← hfs, List.mem_singleton] at hf
            exact hf ▸ anchorPath_abs workspace input hws
          · rw [if_neg hfile] at h
            have hfs : ([] : List String) = fs := by
              injection h with h1
              injection h1 with h2
              exact congrArg Prod.fst h2
            intro f hf
            rw [← hfs] at hf
            exact absurd hf (List.not_mem_nil f)
    · rw [if_pos (by simpa using he)] at h
      have hfs : ([] : List String) = fs := by
        injection h with h1
        injection h1 with h2
        exact congrArg Prod.fst h2
      intro f hf
      rw [← hfs] at hf
      exact absurd hf (List.not_mem_nil f)

/-- Every successful resolution result is the deduplicated image under
`normalizePosix` of a list of absolute gathered files. -/
theorem resolveGo_shape (w : World) (fuel : Nat) (workspace : String)
    (hws : isAbsolutePosix workspace = true)
    (hgf : ∀ p x, x ∈ w.globFiles p → isAbsolutePosix x = true)
    (hgd : ∀ p x, x ∈ w.globDirs p → isAbsolutePosix x = true) :
    ∀ (inputs files warns out warnsOut : List String),
      (∀ f ∈ files, isAbsolutePosix f = true) →
      resolveGo w fuel workspace inputs files warns = some (.ok (out, warnsOut)) →
      ∃ gathered : List String, (∀ f ∈ gathered, isAbsolutePosix f = true) ∧
        out = jsSetDedup (gathered.map normalizePosix) := by
  intro inputs
  induction inputs with
  | nil =>
    intro files warns out warnsOut hfiles hrun
    refine ⟨files, hfiles, ?_⟩
    have : some (Except.ok (jsSetDedup (files.map normalizePosix), warns) :
      Except String (List String × List String)) = some (.ok (out, warnsOut)) := hrun
    injection this with h1
    injection h1 with h2
    exact (congrArg Prod.fst h2).symm
  | cons input rest ih =>
    intro files warns out warnsOut hfiles hrun
    rw [show resolveGo w fuel workspace (input :: rest) files warns =
      (match resolveOne w fuel workspace input with
      | none => none
      | some (Except.error e) => some (Except.error e)
      | some (Except.ok (fs, ws)) =>
        resolveGo w fuel workspace rest (files ++ fs) (warns ++ ws)) from rfl] at hrun
    cases hone : resolveOne w fuel workspace input with
    | none =>
      rw [hone] at hrun
      simp at hrun
    | some r =>
      cases r with
      | error e =>
        rw [hone] at hrun
        simp at hrun
      | ok pr =>
        rw [hone] at hrun
        refine ih (files ++ pr.1) (warns ++ pr.2) out warnsOut ?_ hrun
        intro f hf
        rcases List.mem_append.mp hf with h1 | h2
        · exact hfiles f h1
        · exact resolveOne_abs w fuel workspace input pr.1 pr.2 hws hgf hgd
            (by rw [hone]) f h2

/-- C4: the resolver's output list is duplicate-free; every entry is a
normalised absolute path (no `.` or `..` segments, fixed by another
normalisation), and each appears exactly once — so a file matched by
two different patterns appears exactly once. -/
theorem claimC4_dedup_normalized (w : World) (fuel : Nat) (workspace : String)
    (inputs out warnsOut : List String)
    (hws : isAbsolutePosix workspace = true)
    (hgf : ∀ p x, x ∈ w.globFiles p → isAbsolutePosix x = true)
    (hgd : ∀ p x, x ∈ w.globDirs p → isAbsolutePosix x = true)
    (h : resolveInputPathsToFiles w fuel workspace inputs =
      some (.ok (out, warnsOut))) :
    out.Nodup ∧
    ∀ x ∈ out, normalizePosix x = x ∧ cleanSegs x = true ∧ out.count x = 1 := by
  obtain ⟨gathered, hgat, hout⟩ :=
    resolveGo_shape w fuel workspace hws hgf hgd inputs [] [] out warnsOut
      (fun f hf => absurd hf (List.not_mem_nil f)) h
  have hnodup : out.Nodup := hout ▸ jsSetDedup_nodup _
  refine ⟨hnodup, fun x hx => ?_⟩
  have hx2 : x ∈ (gathered.map normalizePosix) := by
    rw [hout] at hx
    exact (mem_jsSetDedup _ x).mp hx
  obtain ⟨g, hgmem, rfl⟩ := List.mem_map.mp hx2
  have hgabs := hgat g hgmem
  exact ⟨normalizePosix_abs_idem g hgabs, normalizePosix_abs_clean g hgabs,
    List.count_eq_one_of_mem hnodup hx⟩

/-- Witness for C4: two spellings of the same file collapse to one
entry. -/
theorem claimC4_witness :
    isAbsolutePosix "/w1" = true ∧
    resolveInputPathsToFiles wParen 5 "/w1" ["file.txt", "./file.txt"] =
      some (.ok (["/w1/file.txt"], [])) ∧
    (["/w1/file.txt"].Nodup ∧
      ∀ x ∈ ["/w1/file.txt"], normalizePosix x = x ∧ cleanSegs x = true ∧
        ["/w1/file.txt"].count x = 1) := by
  refine ⟨by decide, rfl, ?_⟩
  exact claimC4_dedup_normalized wParen 5 "/w1" ["file.txt", "./file.txt"]
    ["/w1/file.txt"] [] (by decide)
    (fun p x hx => absurd hx (by simp [wParen]))
    (fun p x hx => absurd hx (by simp [wParen])) rfl

/-! ## Common-root analysis (C2): list preliminaries -/

/-- Two lists that are prefixes of each other are equal. -/
theorem pref_antisym {α : Type} {a b : List α} (h1 : a <+: b) (h2 : b <+: a) :
    a = b := by
  obtain ⟨t, rfl⟩ := h1
  have hlen := h2.length_le
  rw [List.length_append] at hlen
  have ht : t = [] := List.eq_nil_of_length_eq_zero (by omega)
  rw [ht, List.append_nil]

/-- Prefixes of cons lists decompose head and tail. -/
theorem cons_pref_cons {α : Type} {x y : α} {as bs : List α} :
    x :: as <+: y :: bs ↔ x = y ∧ as <+: bs := by
  constructor
  · rintro ⟨t, ht⟩
    rw [List.cons_append] at ht
    injection ht with h1 h2
    exact ⟨h1, t, h2⟩
  · rintro ⟨h1, t, h2⟩
    exact ⟨t, by rw [List.cons_append, h1, h2]⟩

/-- `dropLast` distributes over an append with non-empty right part. -/
theorem dropLast_append_cons {α : Type} (a : List α) (x : α) (ts : List α) :
    (a ++ x :: ts).dropLast = a ++ (x :: ts).dropLast := by
  induction a with
  | nil => rfl
  | cons y ys ih =>
    rw [List.cons_append]
    cases hz : ys ++ x :: ts with
    | nil => exact absurd hz (by simp)
    | cons z zs =>
      rw [show (y :: z :: zs).dropLast = y :: (z :: zs).dropLast from rfl]
      rw [← hz, ih, List.cons_append]

/-- Every list has its `dropLast` as a prefix. -/
theorem isPrefix_dropLast {α : Type} (l : List α) : l.dropLast <+: l := by
  by_cases h : l = []
  · subst h
    exact ⟨[], rfl⟩
  · exact ⟨[l.getLast h], List.dropLast_append_getLast h⟩

/-- A proper prefix is a prefix of `dropLast`. -/
theorem pref_dropLast_of_ne {α : Type} {a b : List α} (h : a <+: b) (hne : a ≠ b) :
    a <+: b.dropLast := by
  obtain ⟨t, rfl⟩ := h
  cases t with
  | nil => exact absurd (List.append_nil a).symm hne
  | cons x ts =>
    rw [dropLast_append_cons]
    exact ⟨(x :: ts).dropLast, rfl⟩

/-- A prefix of a singleton is empty or the singleton itself. -/
theorem pref_singleton {α : Type} {a : List α} {s : α} (h : a <+: [s]) :
    a = [] ∨ a = [s] := by
  obtain ⟨t, ht⟩ := h
  cases a with
  | nil => exact Or.inl rfl
  | cons x xs =>
    rw [List.cons_append] at ht
    injection ht with h1 h2
    obtain ⟨hxs, -⟩ := List.append_eq_nil.mp h2
    exact Or.inr (by rw [h1, hxs])

/-- The agreement length never exceeds the left list's length. -/
theorem commonPrefixLen_le_left : ∀ (a b : List String),
    commonPrefixLen a b ≤ a.length := by
  intro a
  induction a with
  | nil =>
    intro b
    rw [show commonPrefixLen [] b = 0 from rfl]
    exact Nat.zero_le _
  | cons x as ih =>
    intro b
    cases b with
    | nil =>
      rw [show commonPrefixLen (x :: as) [] = 0 from rfl]
      exact Nat.zero_le _
    | cons y bs =>
      rw [show commonPrefixLen (x :: as) (y :: bs) =
        if x = y then commonPrefixLen as bs + 1 else 0 from rfl]
      by_cases hxy : x = y
      · rw [if_pos hxy, List.length_cons]
        exact Nat.succ_le_succ (ih bs)
      · rw [if_neg hxy]
        exact Nat.zero_le _

/-- Full agreement length characterises the prefix relation. -/
theorem commonPrefixLen_eq_iff : ∀ (a b : List String),
    (commonPrefixLen a b = a.length ↔ a <+: b) := by
  intro a
  induction a with
  | nil =>
    intro b
    constructor
    · intro _
      exact ⟨b, rfl⟩
    · intro _
      rfl
  | cons x as ih =>
    intro b
    cases b with
    | nil =>
      constructor
      · intro h
        rw [show commonPrefixLen (x :: as) [] = 0 from rfl, List.length_cons] at h
        exact absurd h (by omega)
      · rintro ⟨t, ht⟩
        rw [List.cons_append] at ht
        exact absurd ht (List.cons_ne_nil _ _)
    | cons y bs =>
      rw [show commonPrefixLen (x :: as) (y :: bs) =
        if x = y then commonPrefixLen as bs + 1 else 0 from rfl]
      by_cases hxy : x = y
      · rw [if_pos hxy, List.length_cons]
        constructor
        · intro h
          have h2 : commonPrefixLen as bs = as.length := by omega
          exact cons_pref_cons.mpr ⟨hxy, (ih bs).mp h2⟩
        · intro h
          rw [(ih bs).mpr (cons_pref_cons.mp h).2]
      · rw [if_neg hxy, List.length_cons]
        constructor
        · intro h
          exact absurd h (by omega)
        · intro h
          exact absurd (cons_pref_cons.mp h).1 hxy

/-- Dropping at an in-range index exposes the `getD` element. -/
theorem drop_getD {α : Type} : ∀ (l : List α) (i : Nat) (d : α), i < l.length →
    l.drop i = l.getD i d :: l.drop (i + 1) := by
  intro l
  induction l with
  | nil =>
    intro i d h
    simp at h
  | cons x xs ih =>
    intro i d h
    cases i with
    | zero =>
      rw [List.getD_cons_zero]
      rfl
    | succ j =>
      rw [List.getD_cons_succ]
      rw [show (x :: xs).drop (j + 1) = xs.drop j from rfl]
      rw [show (x :: xs).drop (j + 1 + 1) = xs.drop (j + 1) from rfl]
      exact ih j d (by simpa using h)

/-- A non-empty drop means the index is in range. -/
theorem lt_length_of_drop_cons {α : Type} (l : List α) (i : Nat) (x : α)
    (t : List α) (h : l.drop i = x :: t) : i < l.length := by
  by_contra hle
  push_neg at hle
  rw [List.drop_eq_nil_of_le hle] at h
  exact absurd h (by simp)

/-- The head exposed by a drop is the `getD` element. -/
theorem getD_of_drop_cons {α : Type} (l : List α) (i : Nat) (d x : α)
    (t : List α) (h : l.drop i = x :: t) : l.getD i d = x := by
  have h2 := drop_getD l i d (lt_length_of_drop_cons l i x t h)
  rw [h] at h2
  exact (List.cons_eq_cons.mp h2.symm).1

/-- The tail exposed by a drop is the next drop. -/
theorem drop_succ_of_drop_cons {α : Type} (l : List α) (i : Nat) (x : α)
    (t : List α) (h : l.drop i = x :: t) : l.drop (i + 1) = t := by
  have h2 := drop_getD l i x (lt_length_of_drop_cons l i x t h)
  rw [h] at h2
  exact (List.cons_eq_cons.mp h2.symm).2

/-- The fold computing `minLen` never exceeds its initial value. -/
theorem foldlMin_le_init : ∀ (l : List (List String)) (n : Nat),
    l.foldl (fun m arr => min m arr.length) n ≤ n := by
  intro l
  induction l with
  | nil =>
    intro n
    exact Nat.le_refl n
  | cons x xs ih =>
    intro n
    rw [List.foldl_cons]
    exact Nat.le_trans (ih (min n x.length)) (Nat.min_le_left _ _)

/-- The fold computing `minLen` never exceeds a member's length. -/
theorem foldlMin_le_mem : ∀ (l : List (List String)) (arr : List String),
    arr ∈ l → ∀ n, l.foldl (fun m a => min m a.length) n ≤ arr.length := by
  intro l
  induction l with
  | nil =>
    intro arr h
    exact absurd h (List.not_mem_nil arr)
  | cons x xs ih =>
    intro arr h n
    rw [List.foldl_cons]
    rcases List.mem_cons.mp h with rfl | h2
    · exact Nat.le_trans (foldlMin_le_init xs _) (Nat.min_le_right _ _)
    · exact ih arr h2 _

/-- A lower bound of the initial value and all member lengths bounds the
`minLen` fold from below. -/
theorem le_foldlMin : ∀ (l : List (List String)) (k : Nat),
    (∀ arr ∈ l, k ≤ arr.length) → ∀ n, k ≤ n →
    k ≤ l.foldl (fun m a => min m a.length) n := by
  intro l
  induction l with
  | nil =>
    intro k _ n hn
    rw [List.foldl_nil]
    exact hn
  | cons x xs ih =>
    intro k h n hn
    rw [List.foldl_cons]
    exact ih k (fun a ha => h a (List.mem_cons_of_mem x ha)) _
      (Nat.le_min.mpr ⟨hn, h x (List.mem_cons_self x xs)⟩)

/-- `minLenOf` is a lower bound of every member's length. -/
theorem minLenOf_le (sp : List (List String)) (arr : List String) (h : arr ∈ sp) :
    minLenOf sp ≤ arr.length := by
  cases sp with
  | nil => exact absurd h (List.not_mem_nil arr)
  | cons a rest =>
    rcases List.mem_cons.mp h with rfl | h2
    · exact foldlMin_le_init rest arr.length
    · exact foldlMin_le_mem rest arr h2 a.length

/-- `minLenOf` is the greatest lower bound of the member lengths. -/
theorem le_minLenOf (sp : List (List String)) (k : Nat) (hne : sp ≠ [])
    (h : ∀ arr ∈ sp, k ≤ arr.length) : k ≤ minLenOf sp := by
  cases sp with
  | nil => exact absurd rfl hne
  | cons a rest =>
    show k ≤ rest.foldl (fun m arr => min m arr.length) a.length
    exact le_foldlMin rest k (fun x hx => h x (List.mem_cons_of_mem a hx))
      a.length (h a (List.mem_cons_self a rest))

/-- Unfolding equation of the agreement loop at positive fuel. -/
theorem commonPartsGo_succ (sp : List (List String)) (first : List String)
    (i fuel : Nat) :
    commonPartsGo sp first i (fuel + 1) =
      if sp.all (fun arr => arr.getD i "" = first.getD i "") then
        first.getD i "" :: commonPartsGo sp first (i + 1) fuel
      else [] := rfl

/-- The collected agreeing segments are a prefix of every split path's
remainder, as long as the fuel keeps every read in range. -/
theorem commonPartsGo_pref (sp : List (List String)) (first : List String) :
    ∀ (fuel i : Nat), (∀ arr ∈ sp, i + fuel ≤ arr.length) →
      ∀ arr ∈ sp, commonPartsGo sp first i fuel <+: arr.drop i := by
  intro fuel
  induction fuel with
  | zero =>
    intro i _ arr _
    exact ⟨arr.drop i, rfl⟩
  | succ fuel ih =>
    intro i hlen arr harr
    rw [commonPartsGo_succ]
    by_cases hall : sp.all (fun a => a.getD i "" = first.getD i "") = true
    · rw [if_pos hall]
      simp only [List.all_eq_true, decide_eq_true_eq] at hall
      have hiarr : i < arr.length := by
        have := hlen arr harr
        omega
      rw [drop_getD arr i "" hiarr, hall arr harr]
      obtain ⟨t, ht⟩ := ih (i + 1)
        (fun a ha => by have := hlen a ha; omega) arr harr
      exact ⟨t, by rw [List.cons_append, ht]⟩
    · rw [if_neg hall]
      exact ⟨arr.drop i, rfl⟩

/-- Any common prefix of all the split paths' remainders, no longer than
the fuel, is a prefix of the collected agreeing segments. -/
theorem pref_commonPartsGo (sp : List (List String)) (first : List String)
    (hfirst : first ∈ sp) :
    ∀ (pre : List String) (i fuel : Nat), pre.length ≤ fuel →
      (∀ arr ∈ sp, pre <+: arr.drop i) →
      pre <+: commonPartsGo sp first i fuel := by
  intro pre
  induction pre with
  | nil =>
    intro i fuel _ _
    exact ⟨_, rfl⟩
  | cons x pre ih =>
    intro i fuel hlen hpre
    cases fuel with
    | zero => simp at hlen
    | succ fuel =>
      rw [commonPartsGo_succ]
      have hget : ∀ arr ∈ sp, arr.getD i "" = x := by
        intro arr harr
        obtain ⟨t, ht⟩ := hpre arr harr
        rw [List.cons_append] at ht
        exact getD_of_drop_cons arr i "" x (pre ++ t) ht.symm
      have hall : sp.all (fun a => a.getD i "" = first.getD i "") = true := by
        simp only [List.all_eq_true, decide_eq_true_eq]
        intro a ha
        rw [hget a ha, hget first hfirst]
      rw [if_pos hall, hget first hfirst]
      have htail : ∀ arr ∈ sp, pre <+: arr.drop (i + 1) := by
        intro arr harr
        obtain ⟨t, ht⟩ := hpre arr harr
        rw [List.cons_append] at ht
        exact ⟨t, by rw [drop_succ_of_drop_cons arr i x (pre ++ t) ht.symm]⟩
      obtain ⟨t, ht⟩ := ih (i + 1) fuel
        (by rw [List.length_cons] at hlen; omega) htail
      exact ⟨t, by rw [List.cons_append, ht]⟩

/-- Unfolding equation of the spec-side two-list common prefix. -/
theorem lcp2_cons (a b : String) (as bs : List String) :
    lcp2 (a :: as) (b :: bs) = if a = b then a :: lcp2 as bs else [] := rfl

/-- The spec-side common prefix is a prefix of its left argument. -/
theorem lcp2_pref_left : ∀ (a b : List String), lcp2 a b <+: a := by
  intro a
  induction a with
  | nil =>
    intro b
    exact ⟨_, rfl⟩
  | cons x as ih =>
    intro b
    cases b with
    | nil => exact ⟨_, rfl⟩
    | cons y bs =>
      rw [lcp2_cons]
      by_cases hxy : x = y
      · rw [if_pos hxy]
        obtain ⟨t, ht⟩ := ih bs
        exact ⟨t, by rw [List.cons_append, ht]⟩
      · rw [if_neg hxy]
        exact ⟨_, rfl⟩

/-- The spec-side common prefix is a prefix of its right argument. -/
theorem lcp2_pref_right : ∀ (a b : List String), lcp2 a b <+: b := by
  intro a
  induction a with
  | nil =>
    intro b
    exact ⟨_, rfl⟩
  | cons x as ih =>
    intro b
    cases b with
    | nil => exact ⟨_, rfl⟩
    | cons y bs =>
      rw [lcp2_cons]
      by_cases hxy : x = y
      · rw [if_pos hxy]
        obtain ⟨t, ht⟩ := ih bs
        exact ⟨t, by rw [List.cons_append, ht, hxy]⟩
      · rw [if_neg hxy]
        exact ⟨_, rfl⟩

/-- The spec-side common prefix is the greatest common prefix of two
lists. -/
theorem pref_lcp2 : ∀ (c a b : List String), c <+: a → c <+: b →
    c <+: lcp2 a b := by
  intro c
  induction c with
  | nil =>
    intro a b _ _
    exact ⟨_, rfl⟩
  | cons x cs ih =>
    intro a b h1 h2
    cases a with
    | nil =>
      obtain ⟨t, ht⟩ := h1
      rw [List.cons_append] at ht
      exact absurd ht (List.cons_ne_nil _ _)
    | cons a0 as =>
      cases b with
      | nil =>
        obtain ⟨t, ht⟩ := h2
        rw [List.cons_append] at ht
        exact absurd ht (List.cons_ne_nil _ _)
      | cons b0 bs =>
        obtain ⟨hxa, h1b⟩ := cons_pref_cons.mp h1
        obtain ⟨hxb, h2b⟩ := cons_pref_cons.mp h2
        rw [lcp2_cons, if_pos (by rw [← hxa, ← hxb])]
        exact cons_pref_cons.mpr ⟨hxa, ih as bs h1b h2b⟩

/-- Folding the spec-side common prefix keeps a prefix of the
accumulator. -/
theorem foldl_lcp2_pref_acc : ∀ (l : List (List String)) (acc : List String),
    l.foldl lcp2 acc <+: acc := by
  intro l
  induction l with
  | nil =>
    intro acc
    exact ⟨[], List.append_nil acc⟩
  | cons x xs ih =>
    intro acc
    rw [List.foldl_cons]
    exact (ih (lcp2 acc x)).trans (lcp2_pref_left acc x)

/-- Folding the spec-side common prefix keeps a prefix of every folded
member. -/
theorem foldl_lcp2_pref_mem : ∀ (l : List (List String)) (acc arr : List String),
    arr ∈ l → l.foldl lcp2 acc <+: arr := by
  intro l
  induction l with
  | nil =>
    intro acc arr h
    exact absurd h (List.not_mem_nil arr)
  | cons x xs ih =>
    intro acc arr h
    rw [List.foldl_cons]
    rcases List.mem_cons.mp h with rfl | h2
    · exact (foldl_lcp2_pref_acc xs (lcp2 acc arr)).trans (lcp2_pref_right acc arr)
    · exact ih (lcp2 acc x) arr h2

/-- Any common prefix of the accumulator and all members survives the
spec-side fold. -/
theorem pref_foldl_lcp2 : ∀ (l : List (List String)) (acc c : List String),
    c <+: acc → (∀ arr ∈ l, c <+: arr) → c <+: l.foldl lcp2 acc := by
  intro l
  induction l with
  | nil =>
    intro acc c h _
    rw [List.foldl_nil]
    exact h
  | cons x xs ih =>
    intro acc c h hall
    rw [List.foldl_cons]
    exact ih (lcp2 acc x) c
      (pref_lcp2 c acc x h (hall x (List.mem_cons_self x xs)))
      (fun arr ha => hall arr (List.mem_cons_of_mem x ha))

/-- The implementation's agreeing-segment loop computes exactly the
spec's longest common prefix of the split parent paths. -/
theorem commonPartsOf_eq_spec (sp : List (List String)) (hne : sp ≠ []) :
    commonPartsOf sp = specCommonParts sp := by
  cases sp with
  | nil => exact absurd rfl hne
  | cons a rest =>
    have hfirst : a ∈ a :: rest := List.mem_cons_self a rest
    have hcp_pref : ∀ arr ∈ a :: rest, commonPartsOf (a :: rest) <+: arr := by
      intro arr harr
      exact commonPartsGo_pref (a :: rest) a (minLenOf (a :: rest)) 0
        (fun x hx => by have := minLenOf_le (a :: rest) x hx; omega) arr harr
    have hspec_pref : ∀ arr ∈ a :: rest, specCommonParts (a :: rest) <+: arr := by
      intro arr harr
      show List.foldl lcp2 a rest <+: arr
      rcases List.mem_cons.mp harr with rfl | h2
      · exact foldl_lcp2_pref_acc rest arr
      · exact foldl_lcp2_pref_mem rest a arr h2
    refine pref_antisym ?_ ?_
    · show commonPartsGo (a :: rest) a 0 (minLenOf (a :: rest)) <+:
        List.foldl lcp2 a rest
      refine pref_foldl_lcp2 rest a _ (hcp_pref a hfirst) ?_
      intro arr ha
      exact hcp_pref arr (List.mem_cons_of_mem a ha)
    · show List.foldl lcp2 a rest <+:
        commonPartsGo (a :: rest) a 0 (minLenOf (a :: rest))
      refine pref_commonPartsGo (a :: rest) a hfirst _ 0 _ ?_ ?_
      · refine le_minLenOf (a :: rest) _ (List.cons_ne_nil a rest) ?_
        intro arr harr
        exact (hspec_pref arr harr).length_le
      · intro arr harr
        exact hspec_pref arr harr

/-! ## Common-root analysis (C2): path-level lemmas -/

/-- The split parent directory of a resolved file is a leading empty
segment followed by `tailSegs`. -/
theorem parentSplit_posix (cwd f : String) :
    splitSegs '/' (dirnamePosix (resolvePosix cwd f)) = "" :: tailSegs cwd f := by
  rw [dirname_resolvePosix]
  unfold tailSegs
  by_cases h : (resolveSegsP cwd f).length ≤ 1
  · rw [if_pos h, if_pos h]
    decide
  · rw [if_neg h, if_neg h]
    have hne : (resolveSegsP cwd f).dropLast ≠ [] := by
      intro he
      have h2 := congrArg List.length he
      rw [List.length_dropLast] at h2
      simp only [List.length_nil] at h2
      omega
    have hgood : ∀ s ∈ (resolveSegsP cwd f).dropLast, GoodSeg '/' s := by
      intro s hs
      exact resolveSegsP_good cwd f s (List.dropLast_subset _ hs)
    exact (splitSegs_norm_abs _ hne hgood).1

/-- The parent-split tail is never empty. -/
theorem tailSegs_ne_nil (cwd f : String) : tailSegs cwd f ≠ [] := by
  unfold tailSegs
  by_cases h : (resolveSegsP cwd f).length ≤ 1
  · rw [if_pos h]
    exact List.cons_ne_nil _ _
  · rw [if_neg h]
    intro he
    have h2 := congrArg List.length he
    rw [List.length_dropLast] at h2
    simp only [List.length_nil] at h2
    omega

/-- On POSIX, the split parent paths are exactly the `tailSegs` with a
leading empty segment. -/
theorem splitPathsOf_posix (cwd : String) (files : List String) :
    splitPathsOf (posixPlatform cwd) files =
      files.map (fun f => "" :: tailSegs cwd f) := by
  unfold splitPathsOf
  rw [List.map_map]
  refine List.map_congr_left ?_
  intro f _
  exact parentSplit_posix cwd f

/-- Resolving a rooted join of good segments recovers the segments. -/
theorem resolveSegsP_slash_join (cwd : String) (l : List String) (hne : l ≠ [])
    (hgood : ∀ s ∈ l, GoodSeg '/' s) :
    resolveSegsP cwd ("/" ++ segsJoin '/' l) = l := by
  unfold resolveSegsP
  rw [if_pos (isAbs_slash_append (segsJoin '/' l))]
  rw [(splitSegs_norm_abs l hne hgood).1]
  rw [normSegs_cons, if_pos (Or.inl rfl)]
  rw [normSegs_all_plain false l
    (fun s hs => ⟨(hgood s hs).2.1, (hgood s hs).2.2.1⟩) []]
  rw [List.nil_append]
  exact List.filter_eq_self.mpr (fun s hs => by simpa using (hgood s hs).1)

/-- Resolving the bare root yields no segments. -/
theorem resolveSegsP_root (cwd : String) : resolveSegsP cwd "/" = [] := rfl

/-- Every resolved path is the root joined with its resolved
segments. -/
theorem resolvePosix_eq_slash_join (cwd p : String) :
    resolvePosix cwd p = "/" ++ segsJoin '/' (resolveSegsP cwd p) := by
  unfold resolvePosix
  cases hS : resolveSegsP cwd p with
  | nil => rfl
  | cons s rest => rfl

/-- Equal resolved paths have equal resolved segments. -/
theorem resolvePosix_inj_segs (cwd a b : String)
    (h : resolvePosix cwd a = resolvePosix cwd b) :
    resolveSegsP cwd a = resolveSegsP cwd b := by
  have hgA := resolveSegsP_good cwd a
  have hgB := resolveSegsP_good cwd b
  rw [resolvePosix_eq_slash_join, resolvePosix_eq_slash_join,
    slash_join_mk, slash_join_mk] at h
  have hd := congrArg String.data h
  have hj := (List.cons_eq_cons.mp hd).2
  cases hA : resolveSegsP cwd a with
  | nil =>
    cases hB : resolveSegsP cwd b with
    | nil => rfl
    | cons s bs =>
      rw [hA, hB] at hj
      exact absurd hj.symm
        (joinChars_ne_nil '/' s.data (bs.map String.data)
          (data_ne_nil_of_ne_empty s
            (hgB s (by rw [hB]; exact List.mem_cons_self s bs)).1))
  | cons s as =>
    cases hB : resolveSegsP cwd b with
    | nil =>
      rw [hA, hB] at hj
      exact absurd hj
        (joinChars_ne_nil '/' s.data (as.map String.data)
          (data_ne_nil_of_ne_empty s
            (hgA s (by rw [hA]; exact List.mem_cons_self s as)).1))
    | cons t bs =>
      rw [hA, hB] at hj
      have hsj : segsJoin '/' (s :: as) = segsJoin '/' (t :: bs) :=
        congrArg String.mk hj
      have hfA : ∀ x ∈ s :: as, '/' ∉ x.data := by
        intro x hx
        exact (hgA x (by rw [hA]; exact hx)).2.2.2
      have hfB : ∀ x ∈ t :: bs, '/' ∉ x.data := by
        intro x hx
        exact (hgB x (by rw [hB]; exact hx)).2.2.2
      have h1 := splitSegs_segsJoin '/' (s :: as) (List.cons_ne_nil _ _) hfA
      have h2 := splitSegs_segsJoin '/' (t :: bs) (List.cons_ne_nil _ _) hfB
      rw [← h1, ← h2, hsj]

/-- Joining separator-free segments without `..` yields a string free of
`..` segments. -/
theorem noDotDot_join_good (l : List String) (hfree : ∀ s ∈ l, '/' ∉ s.data)
    (hnd : ∀ s ∈ l, s ≠ "..") : noDotDot (segsJoin '/' l) = true := by
  cases l with
  | nil => decide
  | cons s rest =>
    unfold noDotDot
    rw [splitSegs_segsJoin '/' (s :: rest) (List.cons_ne_nil _ _) hfree]
    rw [List.all_eq_true]
    intro x hx
    simpa using hnd x hx

/-- Joining separator-free segments containing `..` yields a string with
a `..` segment. -/
theorem noDotDot_join_dotdot (l : List String) (hfree : ∀ s ∈ l, '/' ∉ s.data)
    (hmem : ".." ∈ l) : noDotDot (segsJoin '/' l) = false := by
  cases l with
  | nil => exact absurd hmem (List.not_mem_nil _)
  | cons s rest =>
    unfold noDotDot
    rw [splitSegs_segsJoin '/' (s :: rest) (List.cons_ne_nil _ _) hfree]
    rw [List.all_eq_false]
    exact ⟨"..", hmem, by simp⟩

/-- Core of the relative-path analysis: the emitted string is free of
`..` segments exactly when the source segments are a prefix of the
target segments. -/
theorem noDotDot_rel_core (SD SF : List String)
    (hgF : ∀ s ∈ SF, GoodSeg '/' s) :
    noDotDot (segsJoin '/'
      (List.replicate (SD.length - commonPrefixLen SD SF) ".." ++
        SF.drop (commonPrefixLen SD SF))) = true ↔ SD <+: SF := by
  constructor
  · intro hnd
    by_contra hnp
    have hk : commonPrefixLen SD SF < SD.length := by
      have hle := commonPrefixLen_le_left SD SF
      have hne2 : commonPrefixLen SD SF ≠ SD.length :=
        fun he => hnp ((commonPrefixLen_eq_iff SD SF).mp he)
      omega
    have hfree : ∀ s ∈ List.replicate (SD.length - commonPrefixLen SD SF) ".." ++
        SF.drop (commonPrefixLen SD SF), '/' ∉ s.data := by
      intro s hs
      rcases List.mem_append.mp hs with h1 | h2
      · rw [List.eq_of_mem_replicate h1]
        decide
      · exact (hgF s (List.drop_subset _ _ h2)).2.2.2
    have hmem : ".." ∈ List.replicate (SD.length - commonPrefixLen SD SF) ".." ++
        SF.drop (commonPrefixLen SD SF) :=
      List.mem_append.mpr (Or.inl (List.mem_replicate.mpr ⟨by omega, rfl⟩))
    rw [noDotDot_join_dotdot _ hfree hmem] at hnd
    exact absurd hnd Bool.false_ne_true
  · intro hp
    have hk : commonPrefixLen SD SF = SD.length :=
      (commonPrefixLen_eq_iff SD SF).mpr hp
    rw [hk, Nat.sub_self]
    rw [show List.replicate 0 ".." = ([] : List String) from rfl, List.nil_append]
    refine noDotDot_join_good _ ?_ ?_
    · intro s hs
      exact (hgF s (List.drop_subset _ _ hs)).2.2.2
    · intro s hs
      exact (hgF s (List.drop_subset _ _ hs)).2.2.1

/-- A file's path relative to a directory is free of `..` segments
exactly when the directory's resolved segments are a prefix of the
file's. -/
theorem relNoDotDot (cwd D f : String) :
    noDotDot (relativePosix cwd D f) = true ↔
      resolveSegsP cwd D <+: resolveSegsP cwd f := by
  unfold relativePosix
  by_cases heq : resolvePosix cwd D = resolvePosix cwd f
  · rw [if_pos heq]
    constructor
    · intro _
      rw [resolvePosix_inj_segs cwd D f heq]
    · intro _
      decide
  · rw [if_neg heq]
    exact noDotDot_rel_core (resolveSegsP cwd D) (resolveSegsP cwd f)
      (resolveSegsP_good cwd f)

/-- The implementation's agreeing segments are a prefix of every split
path. -/
theorem commonPartsOf_pref (sp : List (List String)) :
    ∀ arr ∈ sp, commonPartsOf sp <+: arr := by
  cases sp with
  | nil =>
    intro arr h
    exact absurd h (List.not_mem_nil arr)
  | cons a rest =>
    intro arr harr
    exact commonPartsGo_pref (a :: rest) a (minLenOf (a :: rest)) 0
      (fun x hx => by have := minLenOf_le (a :: rest) x hx; omega) arr harr

/-- Any common prefix of all split paths is a prefix of the
implementation's agreeing segments. -/
theorem pref_commonPartsOf (sp : List (List String)) (hne : sp ≠ [])
    (pre : List String) (hpre : ∀ arr ∈ sp, pre <+: arr) :
    pre <+: commonPartsOf sp := by
  cases sp with
  | nil => exact absurd rfl hne
  | cons a rest =>
    show pre <+: commonPartsGo (a :: rest) a 0 (minLenOf (a :: rest))
    refine pref_commonPartsGo (a :: rest) a (List.mem_cons_self a rest) pre 0 _ ?_ ?_
    · refine le_minLenOf (a :: rest) _ (List.cons_ne_nil a rest) ?_
      intro arr harr
      exact (hpre arr harr).length_le
    · intro arr harr
      exact hpre arr harr

/-- C2 (amended): on POSIX, for a non-empty file list whose parent
directories agree on at least two split segments (the leading empty
segment plus one real segment), `computeCommonRootDirectory` returns the
joined prefix of agreeing parent segments; that prefix equals the spec's
segment-by-segment walk (the longest common prefix of the split parent
paths); every input file made relative to the result contains no `..`
segment; and the result is deepest with that property: any directory
(identified by its resolved segments, distinct from every input file's)
all files are `..`-free relative to sits at or above the result. -/
theorem claimC2_common_root (cwd first : String) (rest : List String)
    (hcp : 2 ≤ (commonPartsOf (splitPathsOf (posixPlatform cwd)
      (first :: rest))).length) :
    computeCommonRootDirectory (posixPlatform cwd) (first :: rest) =
      segsJoin '/' (commonPartsOf (splitPathsOf (posixPlatform cwd)
        (first :: rest))) ∧
    commonPartsOf (splitPathsOf (posixPlatform cwd) (first :: rest)) =
      specCommonParts (splitPathsOf (posixPlatform cwd) (first :: rest)) ∧
    (∀ f ∈ first :: rest,
      noDotDot (relativePosix cwd
        (computeCommonRootDirectory (posixPlatform cwd) (first :: rest)) f) =
        true) ∧
    (∀ D : String,
      (∀ f ∈ first :: rest, noDotDot (relativePosix cwd D f) = true) →
      (∀ f ∈ first :: rest, resolveSegsP cwd D ≠ resolveSegsP cwd f) →
      resolveSegsP cwd D <+:
        resolveSegsP cwd
          (computeCommonRootDirectory (posixPlatform cwd) (first :: rest))) := by
  have hspne : splitPathsOf (posixPlatform cwd) (first :: rest) ≠ [] := by
    rw [splitPathsOf_posix]
    simp
  have hmem : ∀ f ∈ first :: rest,
      ("" :: tailSegs cwd f) ∈ splitPathsOf (posixPlatform cwd) (first :: rest) := by
    intro f hf
    rw [splitPathsOf_posix]
    exact List.mem_map.mpr ⟨f, hf, rfl⟩
  have hshape : ∀ arr ∈ splitPathsOf (posixPlatform cwd) (first :: rest),
      ∃ f ∈ first :: rest, arr = "" :: tailSegs cwd f := by
    intro arr harr
    rw [splitPathsOf_posix] at harr
    obtain ⟨f, hf, rfl⟩ := List.mem_map.mp harr
    exact ⟨f, hf, rfl⟩
  have hpref := commonPartsOf_pref (splitPathsOf (posixPlatform cwd) (first :: rest))
  obtain ⟨p0, p1, ptl, hCP⟩ : ∃ p0 p1 ptl,
      commonPartsOf (splitPathsOf (posixPlatform cwd) (first :: rest)) =
        p0 :: p1 :: ptl := by
    cases h1 : commonPartsOf (splitPathsOf (posixPlatform cwd) (first :: rest)) with
    | nil =>
      rw [h1, List.length_nil] at hcp
      omega
    | cons x xs =>
      cases xs with
      | nil =>
        rw [h1, List.length_cons, List.length_nil] at hcp
        omega
      | cons y ys => exact ⟨x, y, ys, rfl⟩
  have hfirstmem := hmem first (List.mem_cons_self first rest)
  have hp' := hpref _ hfirstmem
  rw [hCP] at hp'
  obtain ⟨hp0, hp1tl⟩ := cons_pref_cons.mp hp'
  have hcommonOf : commonOf (posixPlatform cwd) (first :: rest) first =
      segsJoin '/' (commonPartsOf (splitPathsOf (posixPlatform cwd)
        (first :: rest))) := by
    unfold commonOf
    rw [if_pos (by rw [hCP, List.length_cons]; omega)]
    rfl
  have hdata : ¬(segsJoin '/' (commonPartsOf (splitPathsOf (posixPlatform cwd)
      (first :: rest)))).data = [] := by
    rw [hCP, hp0]
    rw [show (segsJoin '/' ("" :: p1 :: ptl)).data =
      '/' :: (segsJoin '/' (p1 :: ptl)).data from rfl]
    exact List.cons_ne_nil _ _
  have hR : computeCommonRootDirectory (posixPlatform cwd) (first :: rest) =
      segsJoin '/' (commonPartsOf (splitPathsOf (posixPlatform cwd)
        (first :: rest))) := by
    rw [show computeCommonRootDirectory (posixPlatform cwd) (first :: rest) =
      (if (commonOf (posixPlatform cwd) (first :: rest) first).data = []
        then (posixPlatform cwd).cwd
        else commonOf (posixPlatform cwd) (first :: rest) first) from rfl]
    rw [hcommonOf, if_neg hdata]
  by_cases hA1 : (resolveSegsP cwd first).length ≤ 1
  · have htf : tailSegs cwd first = [""] := by
      unfold tailSegs
      rw [if_pos hA1]
    rw [htf] at hp1tl
    obtain ⟨hp1, hptl⟩ := cons_pref_cons.mp hp1tl
    have hptl_nil : ptl = [] := by
      obtain ⟨t, ht⟩ := hptl
      exact (List.append_eq_nil.mp ht).1
    have hRslash : computeCommonRootDirectory (posixPlatform cwd)
        (first :: rest) = "/" := by
      rw [hR, hCP, hp0, hp1, hptl_nil]
      rfl
    have hSR : resolveSegsP cwd (computeCommonRootDirectory (posixPlatform cwd)
        (first :: rest)) = [] := by
      rw [hRslash]
      exact resolveSegsP_root cwd
    refine ⟨hR, commonPartsOf_eq_spec _ hspne, ?_, ?_⟩
    · intro f hf
      rw [relNoDotDot, hSR]
      exact ⟨_, rfl⟩
    · intro D hprop hne
      rw [hSR]
      have hDf := (relNoDotDot cwd D first).mp
        (hprop first (List.mem_cons_self first rest))
      have hDne := hne first (List.mem_cons_self first rest)
      cases hSf : resolveSegsP cwd first with
      | nil =>
        rw [hSf] at hDf hDne
        obtain ⟨t, ht⟩ := hDf
        exact absurd (List.append_eq_nil.mp ht).1 hDne
      | cons s ss =>
        rw [hSf] at hDf hDne hA1
        rw [List.length_cons] at hA1
        have hss : ss = [] := List.eq_nil_of_length_eq_zero (by omega)
        rw [hss] at hDf hDne
        rcases pref_singleton hDf with h0 | h1
        · rw [h0]
        · exact absurd h1 hDne
  · have htf : tailSegs cwd first = (resolveSegsP cwd first).dropLast := by
      unfold tailSegs
      rw [if_neg hA1]
    rw [htf] at hp1tl
    have hgoodcp : ∀ s ∈ p1 :: ptl, GoodSeg '/' s := by
      intro s hs
      obtain ⟨t, ht⟩ := hp1tl
      have hsub : s ∈ (resolveSegsP cwd first).dropLast := by
        rw [← ht]
        exact List.mem_append.mpr (Or.inl hs)
      exact resolveSegsP_good cwd first s (List.dropLast_subset _ hsub)
    have hcptail : ∀ f ∈ first :: rest, (p1 :: ptl) <+: tailSegs cwd f := by
      intro f hf
      have h := hpref _ (hmem f hf)
      rw [hCP] at h
      exact (cons_pref_cons.mp h).2
    have htail_eq : ∀ f ∈ first :: rest,
        tailSegs cwd f = (resolveSegsP cwd f).dropLast ∧
          tailSegs cwd f <+: resolveSegsP cwd f := by
      intro f hf
      by_cases hf1 : (resolveSegsP cwd f).length ≤ 1
      · exfalso
        have h := hcptail f hf
        unfold tailSegs at h
        rw [if_pos hf1] at h
        exact (hgoodcp p1 (List.mem_cons_self p1 ptl)).1 (cons_pref_cons.mp h).1
      · constructor
        · unfold tailSegs
          rw [if_neg hf1]
        · unfold tailSegs
          rw [if_neg hf1]
          exact isPrefix_dropLast _
    have hRjoin : computeCommonRootDirectory (posixPlatform cwd) (first :: rest) =
        "/" ++ segsJoin '/' (p1 :: ptl) := by
      rw [hR, hCP, hp0]
      rfl
    have hSR : resolveSegsP cwd (computeCommonRootDirectory (posixPlatform cwd)
        (first :: rest)) = p1 :: ptl := by
      rw [hRjoin]
      exact resolveSegsP_slash_join cwd (p1 :: ptl) (List.cons_ne_nil _ _) hgoodcp
    refine ⟨hR, commonPartsOf_eq_spec _ hspne, ?_, ?_⟩
    · intro f hf
      rw [relNoDotDot, hSR]
      exact (hcptail f hf).trans (htail_eq f hf).2
    · intro D hprop hne
      rw [hSR]
      have hSD_tail : ∀ f ∈ first :: rest,
          resolveSegsP cwd D <+: tailSegs cwd f := by
        intro f hf
        have h1 := (relNoDotDot cwd D f).mp (hprop f hf)
        have h2 := pref_dropLast_of_ne h1 (hne f hf)
        rw [(htail_eq f hf).1]
        exact h2
      have hfull : ("" :: resolveSegsP cwd D) <+:
          commonPartsOf (splitPathsOf (posixPlatform cwd) (first :: rest)) := by
        refine pref_commonPartsOf _ hspne _ ?_
        intro arr harr
        obtain ⟨f, hf, rfl⟩ := hshape arr harr
        exact cons_pref_cons.mpr ⟨rfl, hSD_tail f hf⟩
      rw [hCP, hp0] at hfull
      exact (cons_pref_cons.mp hfull).2

/-- Witness for C2: files under `/x/a` and `/x/b` with working directory
`/w` share the root `/x`, computed as the joined agreeing parent
segments. -/
theorem claimC2_witness :
    2 ≤ (commonPartsOf (splitPathsOf (posixPlatform "/w")
      ["/x/a/f.txt" , "/x/b/g.txt"])).length ∧
    (computeCommonRootDirectory (posixPlatform "/w")
        ["/x/a/f.txt" , "/x/b/g.txt"] =
      segsJoin '/' (commonPartsOf (splitPathsOf (posixPlatform "/w")
        ["/x/a/f.txt" , "/x/b/g.txt"])) ∧
    commonPartsOf (splitPathsOf (posixPlatform "/w")
        ["/x/a/f.txt" , "/x/b/g.txt"]) =
      specCommonParts (splitPathsOf (posixPlatform "/w")
        ["/x/a/f.txt" , "/x/b/g.txt"]) ∧
    (∀ f ∈ ("/x/a/f.txt" : String) :: ["/x/b/g.txt"],
      noDotDot (relativePosix "/w"
        (computeCommonRootDirectory (posixPlatform "/w")
          ["/x/a/f.txt" , "/x/b/g.txt"]) f) = true) ∧
    (∀ D : String,
      (∀ f ∈ ("/x/a/f.txt" : String) :: ["/x/b/g.txt"],
        noDotDot (relativePosix "/w" D f) = true) →
      (∀ f ∈ ("/x/a/f.txt" : String) :: ["/x/b/g.txt"],
        resolveSegsP "/w" D ≠ resolveSegsP "/w" f) →
      resolveSegsP "/w" D <+:
        resolveSegsP "/w"
          (computeCommonRootDirectory (posixPlatform "/w")
            ["/x/a/f.txt" , "/x/b/g.txt"]))) :=
  ⟨by decide, claimC2_common_root "/w" "/x/a/f.txt" ["/x/b/g.txt"] (by decide)⟩

/-- C2 counterexample: for the absolute files `/a/f` and `/b/g` (working
directory `/w`) only the leading empty segment agrees, the joined prefix
is the empty string, and the function falls back to the working
directory `/w` instead — which is not the joined prefix, and relative to
which `/a/f` starts with a `..` segment, so root correctness fails. -/
theorem claimC2_counterexample :
    computeCommonRootDirectory (posixPlatform "/w") ["/a/f", "/b/g"] = "/w" ∧
    segsJoin '/' (commonPartsOf (splitPathsOf (posixPlatform "/w")
      ["/a/f", "/b/g"])) = "" ∧
    noDotDot (relativePosix "/w"
      (computeCommonRootDirectory (posixPlatform "/w") ["/a/f", "/b/g"])
      "/a/f") = false :=
  ⟨by decide, by decide, by decide⟩

end UploadArtifacts
